import Mathlib

/-!
Verification of the WebAssembly module host implemented in
`mcu_link/spsdk_mcu_link/dapper/webix_dapper_wasm.py`: the emval handle
table, the embind type-registration protocol, struct (value-object)
marshaling, the boundary string codec, the file-descriptor import stubs
and the import satisfier, shallowly embedded as executable Lean
definitions mirroring the Python source line by line.
-/

namespace WebixDapper

/-- A Python value as stored in the `emval_handles` list.  The table mixes
refcount integers, `None`, booleans and arbitrary host objects; arbitrary
non-special objects are abstracted as `vObj n` (distinct `n`, distinct
objects). -/
inductive PyVal where
  | vInt (n : Int)
  | vNone
  | vBool (b : Bool)
  | vObj (n : Nat)
deriving DecidableEq, Repr

open PyVal

/-- Python `isinstance(item, int)`; `bool` is a subclass of `int`. -/
def isInstInt : PyVal → Bool
  | vInt _ => true
  | vBool _ => true
  | _ => false

/-- Numeric value of a `PyVal` under Python integer arithmetic
(`True` behaves as `1`, `False` as `0`); only used on values that passed
the `isinstance(item, int)` test. -/
def asInt : PyVal → Int
  | vInt n => n
  | vBool b => if b then 1 else 0
  | _ => 0

/-- The mutable emval state of a `WebixDapperWasm` instance:
`self.emval_handles` and `self.emval_freelist` (both start empty in
`__init__`). -/
structure EmvalState where
  handles : List PyVal
  freelist : List Nat
deriving DecidableEq, Repr

/-- `emval_to_value` (source lines 240-243): `self.emval_handles[handle]`.
An out-of-range index raises `IndexError`.  The source's
`if handle is None` guard cannot fire for a machine integer handle. -/
def emval_to_value (s : EmvalState) (handle : Nat) : Except String PyVal :=
  match s.handles[handle]? with
  | some v => .ok v
  | none => .error "IndexError"

/-- Python `list.pop()`: removes and returns the last element
(`None` when the list is empty is never requested: the source guards with
`if self.emval_freelist`). -/
def pyListPop? (l : List Nat) : Option (Nat × List Nat) :=
  match l.getLast? with
  | some x => some (x, l.dropLast)
  | none => none

/-- The source's store-at-index idiom in `emval_to_handle`:
`if i < len(l): l[i] = v` otherwise `l.extend([0] * (i - len(l)))`
followed by `l.append(v)` (the padding consists of Python ints `0`). -/
def pySetExtend (l : List PyVal) (i : Nat) (v : PyVal) : List PyVal :=
  if i < l.length then l.set i v
  else l ++ List.replicate (i - l.length) (vInt 0) ++ [v]

/-- The free-slot choice of `emval_to_handle`:
`self.emval_freelist.pop() if self.emval_freelist else
len(self.emval_handles)` together with the resulting free list. -/
def popOrLen (s : EmvalState) : Nat × List Nat :=
  match pyListPop? s.freelist with
  | some (h, rest) => (h, rest)
  | none => (s.handles.length, s.freelist)

/-- `emval_to_handle` (source lines 245-272): `None`/`True`/`False` map to
the reserved handles 2/6/8; anything else pops a free slot (or appends at
the end of the table), stores the value at `handle` and a refcount `1` at
`handle + 1`. -/
def emval_to_handle (s : EmvalState) (value : PyVal) : Nat × EmvalState :=
  if value = vNone then (2, s)
  else if value = vBool true then (6, s)
  else if value = vBool false then (8, s)
  else
    let handle := (popOrLen s).1
    let freelist := (popOrLen s).2
    let handles := pySetExtend s.handles handle value
    let handles := pySetExtend handles (handle + 1) (vInt 1)
    (handle, { handles := handles, freelist := freelist })

/-- `init_emval` (source lines 274-284): seeds the ten reserved slots
`0, 1, None, 1, None, 1, True, 1, False, 1`. -/
def init_emval (s : EmvalState) : EmvalState :=
  { s with
    handles := s.handles ++
      [vInt 0, vInt 1, vNone, vInt 1, vNone, vInt 1,
       vBool true, vInt 1, vBool false, vInt 1] }

/-- `_emval_decref` (source lines 286-291).  The reclaim test is the
Python chained comparison `handle > 9 == item - 1`, i.e.
`(handle > 9) and (9 == item - 1)`; the stored refcount is never
decremented. -/
def emval_decref (s : EmvalState) (handle : Nat) : Except String EmvalState :=
  match s.handles[handle + 1]? with
  | none => .error "IndexError"
  | some item =>
    if isInstInt item then
      if 9 < handle ∧ (9 : Int) = asInt item - 1 then
        .ok { handles := s.handles.set handle vNone,
              freelist := s.freelist ++ [handle] }
      else .ok s
    else .ok s

/-- `_emval_incref` (source lines 293-298): for `handle > 9` with an
integer refcount, stores `item + 1` back at `handle + 1`. -/
def emval_incref (s : EmvalState) (handle : Nat) : Except String EmvalState :=
  match s.handles[handle + 1]? with
  | none => .error "IndexError"
  | some item =>
    if isInstInt item then
      if 9 < handle then
        .ok { s with handles := s.handles.set (handle + 1) (vInt (asInt item + 1)) }
      else .ok s
    else .ok s

/-- One emval refcount operation, for reasoning about arbitrary
interleavings of `_emval_incref` and `_emval_decref`. -/
inductive EmvalOp where
  | incref (h : Nat)
  | decref (h : Nat)
deriving DecidableEq, Repr

/-- The handle an operation acts on. -/
def EmvalOp.handle : EmvalOp → Nat
  | .incref h => h
  | .decref h => h

/-- Run one operation. -/
def runEmvalOp (s : EmvalState) : EmvalOp → Except String EmvalState
  | .incref h => emval_incref s h
  | .decref h => emval_decref s h

/-- Run a sequence of operations, stopping at the first raised error. -/
def runEmvalOps (s : EmvalState) : List EmvalOp → Except String EmvalState
  | [] => .ok s
  | op :: rest =>
    match runEmvalOp s op with
    | .ok s' => runEmvalOps s' rest
    | .error e => .error e

/-- The emval table right after `runtime_init` seeds it. -/
def seededEmval : EmvalState := init_emval ⟨[], []⟩

/-! ### The embind type registry (`registered_types`, `awaiting_dependencies`,
`when_dependent_types_are_resolved`, `shared_register_type`)

Converters (`registered_instance` dicts) are abstracted as opaque numeric
tokens; `0` is the placeholder the source puts in `type_converters = [0] * n`.
The model covers one pending registration group (one call to
`when_dependent_types_are_resolved`), which is what the struct-marshaling
path creates; its closure state (`type_converters`, `registered`,
`unregistered_types`, `my_types`, `get_type_converters`) is `GroupSt`. -/

/-- The closure state shared by `on_complete` and the `aw_dep` callbacks of
one `when_dependent_types_are_resolved` call. -/
structure GroupSt where
  myTypes : List Nat
  deps : List Nat
  converters : List Nat
  unregisteredCount : Nat
  registered : Nat
  getTypeConverters : List Nat → List Nat

/-- Registry state: `self.registered_types`, `self.type_dependencies`,
`self.awaiting_dependencies` (entries hold the slot indices the pending
group's `aw_dep` callbacks capture), the single pending group, and the
trace of `on_complete` invocations (each recorded with the
`type_converters` list it was passed). -/
structure EmbindState where
  registeredTypes : List (Nat × Nat)
  typeDependencies : List (Nat × List Nat)
  awaiting : List (Nat × List Nat)
  group : Option GroupSt
  events : List (List Nat)

/-- Python `dict` lookup over an association list (most recent binding
shadows older ones, matching in-place `dict` update). -/
def dictLookup {α : Type} (l : List (Nat × α)) (k : Nat) : Option α :=
  match l with
  | [] => none
  | (k', v) :: rest => if k' = k then some v else dictLookup rest k

/-- Python `d[k] = v`. -/
def dictInsert {α : Type} (l : List (Nat × α)) (k : Nat) (v : α) :
    List (Nat × α) :=
  (k, v) :: l

/-- Python `if k in d: del d[k]` (all shadowed bindings go too, so the key
is absent afterwards). -/
def dictRemove {α : Type} (l : List (Nat × α)) (k : Nat) : List (Nat × α) :=
  match l with
  | [] => []
  | p :: rest => if p.1 = k then dictRemove rest k else p :: dictRemove rest k

/-- `register_type(t, conv, {})` for each `(t, conv)` in order, as done by
`on_complete` over `enumerate(my_types)` (`register_type` forwards to
`shared_register_type`; its dict-shape checks concern the abstracted
converter record). -/
def regListWith (regFn : EmbindState → Nat → Nat → Bool → Except String EmbindState) :
    EmbindState → List (Nat × Nat) → Except String EmbindState
  | st, [] => .ok st
  | st, (t, c) :: rest =>
    match regFn st t c false with
    | .ok st' => regListWith regFn st' rest
    | .error e => .error e

/-- `on_complete(type_converters)` (source lines 880-885): invoking
`get_type_converters` is the observable completion event; then the
converter count is validated and each own type is registered. -/
def fireGroupWith (regFn : EmbindState → Nat → Nat → Bool → Except String EmbindState)
    (st : EmbindState) (g : GroupSt) : Except String EmbindState :=
  let tcs := g.converters
  let st' := { st with events := st.events ++ [tcs] }
  let mts := g.getTypeConverters tcs
  if mts.length ≠ g.myTypes.length then .error "Mismatched type converter count"
  else regListWith regFn st' (g.myTypes.zip mts)

/-- Running the `aw_dep` callbacks stored for `dtId` (source lines
898-903): each fills its captured slot of `type_converters` from
`registered_types[dt_id]`, bumps `registered`, and fires `on_complete`
when `registered == len(unregistered_types)`. -/
def runCallbacksWith (regFn : EmbindState → Nat → Nat → Bool → Except String EmbindState) :
    EmbindState → Nat → List Nat → Except String EmbindState
  | st, _, [] => .ok st
  | st, dtId, slot :: rest =>
    match dictLookup st.registeredTypes dtId with
    | none => .error "KeyError"
    | some c =>
      match st.group with
      | none => .error "KeyError"
      | some g =>
        let g' := { g with converters := g.converters.set slot c,
                           registered := g.registered + 1 }
        let st' := { st with group := some g' }
        if g'.registered = g'.unregisteredCount then
          match fireGroupWith regFn st' g' with
          | .ok st'' => runCallbacksWith regFn st'' dtId rest
          | .error e => .error e
        else runCallbacksWith regFn st' dtId rest

/-- `shared_register_type` (source lines 1023-1044): positive-id check,
duplicate handling, registration, clearing `type_dependencies`, then
popping and running the `awaiting_dependencies` callbacks for this id.
The `fuel` bounds the `on_complete -> register_type` recursion depth
(the source recursion is finite for the same reason the proofs discharge
the fuel: a group fires only when no callback of its own is left). -/
def sharedRegisterType : Nat → EmbindState → Nat → Nat → Bool → Except String EmbindState
  | 0, _, _, _, _ => .error "model: out of fuel"
  | fuel + 1, st, rawType, conv, ignoreDup =>
    if rawType = 0 then .error "type must have positive pointer"
    else if (dictLookup st.registeredTypes rawType).isSome ∧ ignoreDup then .ok st
    else
      let st' := { st with
        registeredTypes := dictInsert st.registeredTypes rawType conv,
        typeDependencies := dictRemove st.typeDependencies rawType }
      match dictLookup st'.awaiting rawType with
      | none => .ok st'
      | some slots =>
        let st'' := { st' with awaiting := dictRemove st'.awaiting rawType }
        runCallbacksWith (sharedRegisterType fuel) st'' rawType slots

/-- `awaiting_dependencies[dt_id].append(aw_dep)`, creating the entry when
absent (source lines 895-905). -/
def awAppend (aw : List (Nat × List Nat)) (k : Nat) (slot : Nat) :
    List (Nat × List Nat) :=
  match aw with
  | [] => [(k, [slot])]
  | (k', s) :: rest =>
    if k' = k then (k', s ++ [slot]) :: rest else (k', s) :: awAppend rest k slot

/-- The `for i, dt in enumerate(dependent_types)` loop of
`when_dependent_types_are_resolved` (source lines 886-905): returns the
`type_converters` list, `len(unregistered_types)`, and the grown
`awaiting_dependencies` map (slot indices only; the closures are in
`GroupSt`). -/
def wdtarBuild (reg : List (Nat × Nat)) (deps : List Nat) (i : Nat)
    (aw : List (Nat × List Nat)) : List Nat × Nat × List (Nat × List Nat) :=
  match deps with
  | [] => ([], 0, aw)
  | d :: rest =>
    match dictLookup reg d with
    | some c =>
      let r := wdtarBuild reg rest (i + 1) aw
      (c :: r.1, r.2.1, r.2.2)
    | none =>
      let r := wdtarBuild reg rest (i + 1) (awAppend aw d i)
      (0 :: r.1, r.2.1 + 1, r.2.2)

/-- `when_dependent_types_are_resolved` (source lines 874-907).  The model
supports one pending group at a time (`st.group = none` on entry). -/
def whenDependentTypesAreResolved (fuel : Nat) (st : EmbindState)
    (myTypes : List Nat) (dependentTypes : List Nat)
    (gf : List Nat → List Nat) : Except String EmbindState :=
  match st.group with
  | some _ => .error "model: a second pending group is out of scope"
  | none =>
    let td' := myTypes.foldl (fun td t => dictInsert td t dependentTypes)
      st.typeDependencies
    let st' := { st with typeDependencies := td' }
    let r := wdtarBuild st'.registeredTypes dependentTypes 0 st'.awaiting
    let g : GroupSt :=
      { myTypes := myTypes, deps := dependentTypes, converters := r.1,
        unregisteredCount := r.2.1, registered := 0,
        getTypeConverters := gf }
    let st'' := { st' with awaiting := r.2.2, group := some g }
    if r.2.1 = 0 then fireGroupWith (sharedRegisterType fuel) st'' g
    else .ok st''

/-- A sequence of external `shared_register_type` calls. -/
def registerSequence (fuel : Nat) : EmbindState → List (Nat × Nat) →
    Except String EmbindState
  | st, [] => .ok st
  | st, (t, c) :: rest =>
    match sharedRegisterType fuel st t c false with
    | .ok st' => registerSequence fuel st' rest
    | .error e => .error e

/-! ### The struct (value-object) marshaler: `to_wire_type` -/

/-- Observable effects of `to_wire_type`: the raw-constructor call
(allocating struct memory at `ptr`) and the per-field setter calls. -/
inductive TWEvent where
  | alloc (ptr : Nat)
  | fieldWrite (name : String)
deriving DecidableEq, Repr

/-- The `for fn in fields: if fn not in o` validation loop at the top of
`to_wire_type` (source lines 1586-1588): first declared field missing
from the mapping `o`, in field order. -/
def findMissingField (fields : List String) (o : List (String × PyVal)) :
    Option String :=
  match fields with
  | [] => none
  | fn :: rest =>
    if (o.lookup fn).isSome then findMissingField rest o else some fn

/-- `to_wire_type` (source lines 1580-1596) of a finalized value object
with declared field names `fields`: validates all fields are present in
`o`, then calls the raw constructor (modelled as yielding `ctorPtr`),
writes every field through its setter, appends `(dtor, ptr)` to the
destructor list when one was supplied, and returns the struct pointer.
The second component is the trace of effects. -/
def to_wire_type (fields : List String) (destructors : Option (List Nat))
    (o : List (String × PyVal)) (ctorPtr : Nat) (dtor : Nat) :
    Except String (Nat × Option (List Nat)) × List TWEvent :=
  match findMissingField fields o with
  | some fn => (.error ("Missing field: " ++ fn), [])
  | none =>
    let events := TWEvent.alloc ctorPtr :: fields.map TWEvent.fieldWrite
    let ds :=
      match destructors with
      | some l => some (l ++ [dtor, ctorPtr])
      | none => none
    (.ok (ctorPtr, ds), events)

/-! ### The string codec: `string_to_utf8_array` and `read_latin_1_string` -/

/-- The `for char in str_data` encoding loop of `string_to_utf8_array`
(source lines 1364-1367): one byte per character at consecutive
addresses; a code point not fitting one byte makes
`c.to_bytes(1, "little")` raise `OverflowError` (`none`).  Returns the
`(address, byte)` writes and the final `out_ptr`. -/
def writeLoop (chars : List Nat) (p : Nat) : Option (List (Nat × Nat) × Nat) :=
  match chars with
  | [] => some ([], p)
  | c :: rest =>
    if c < 256 then
      match writeLoop rest (p + 1) with
      | some (ws, fp) => some ((p, c) :: ws, fp)
      | none => none
    else none

/-- `string_to_utf8_array` (source lines 1357-1371): returns `0` writing
nothing unless `max_bytes_to_write > 0`; otherwise writes every
character byte, a trailing NUL, and returns `out_ptr - start` (the data
byte count).  The characters of the Python `str` are given as their code
points. -/
def string_to_utf8_array (strData : List Nat) (outPtr : Nat)
    (maxBytesToWrite : Int) : Option (List (Nat × Nat) × Nat) :=
  if ¬ 0 < maxBytesToWrite then some ([], 0)
  else
    match writeLoop strData outPtr with
    | some (ws, p) => some (ws ++ [(p, 0)], p - outPtr)
    | none => none

/-- The `while True` loop of `read_latin_1_string` (source lines 826-835)
over a finite linear memory `mem`: reads the byte at `c` (reading past
the end of memory traps with `IndexError`), stops at a NUL byte or once
`c >= ptr + max_bytes` (unless `max_bytes == -1`), and otherwise decodes
the single byte with Python's default `bytes.decode()` — UTF-8, which
accepts exactly the bytes below `0x80` and raises `UnicodeDecodeError`
on the rest. -/
def readLatin1Loop (mem : List Nat) (ptr : Nat) (maxBytes : Int) (c : Nat)
    (chars : List Char) : Except String String :=
  if hc : c < mem.length then
    let b := mem[c]
    if b = 0 ∨ ((ptr : Int) + maxBytes ≤ (c : Int) ∧ maxBytes ≠ -1) then
      .ok (String.mk chars)
    else if b < 128 then
      readLatin1Loop mem ptr maxBytes (c + 1) (chars ++ [Char.ofNat b])
    else .error "UnicodeDecodeError"
  else .error "IndexError"
termination_by mem.length - c

/-- `read_latin_1_string(ptr, max_bytes=-1)` (source lines 826-835). -/
def read_latin_1_string (mem : List Nat) (ptr : Nat) (maxBytes : Int) :
    Except String String :=
  readLatin1Loop mem ptr maxBytes ptr []

/-! ### File-descriptor imports: `fd_write`, `fd_seek`, `fd_close`

Linear memory is modelled as a total byte map for these (bounds are
enforced by the runtime and out of scope here). -/

/-- `int.from_bytes(memory.read(a, a + 4), "little")`. -/
def read4 (mem : Nat → Nat) (a : Nat) : Nat :=
  mem a + 256 * mem (a + 1) + 65536 * mem (a + 2) + 16777216 * mem (a + 3)

/-- The `for j in range(length)` byte loop of `fd_write` (source lines
794-802): each byte goes to stdout for `fd == 1`, stderr for `fd == 2`,
and any other descriptor raises `ValueError` at the first byte. -/
def fdWriteBytes (fd : Int) (bytes : List Nat) :
    Except String (List (Int × Nat)) :=
  match bytes with
  | [] => .ok []
  | b :: rest =>
    if fd = 1 ∨ fd = 2 then
      match fdWriteBytes fd rest with
      | .ok out => .ok ((fd, b) :: out)
      | .error e => .error e
    else .error ("Unknown file descriptor " ++ toString fd)

/-- The `for _ in range(iovcnt)` loop of `fd_write` (source lines
790-803): reads each iovec's pointer and length, forwards its bytes,
and accumulates `num`. -/
def fdWriteLoop (mem : Nat → Nat) (fd : Int) (iov : Nat) (iovcnt : Nat)
    (num : Nat) (out : List (Int × Nat)) :
    Except String (Nat × List (Int × Nat)) :=
  match iovcnt with
  | 0 => .ok (num, out)
  | n + 1 =>
    match fdWriteBytes fd ((List.range (read4 mem (iov + 4))).map
        (fun j => mem (read4 mem iov + j))) with
    | .ok evts =>
      fdWriteLoop mem fd (iov + 8) n (num + read4 mem (iov + 4)) (out ++ evts)
    | .error e => .error e

/-- `num.to_bytes(4, "little")` stored at `pnum`. -/
def numToBytes4 (num pnum : Nat) : List (Nat × Nat) :=
  [(pnum, num % 256), (pnum + 1, num / 256 % 256),
   (pnum + 2, num / 65536 % 256), (pnum + 3, num / 16777216 % 256)]

/-- `fd_write` (source lines 787-806): returns the WASI status `0`, the
`(fd, byte)` output trace, and the 4-byte little-endian write of `num`
at `pnum` (`num.to_bytes(4, ...)` raises `OverflowError` past 2^32). -/
def fd_write (mem : Nat → Nat) (fd : Int) (iov iovcnt pnum : Nat) :
    Except String (Int × List (Int × Nat) × List (Nat × Nat)) :=
  match fdWriteLoop mem fd iov iovcnt 0 [] with
  | .error e => .error e
  | .ok (num, out) =>
    if num < 4294967296 then .ok (0, out, numToBytes4 num pnum)
    else .error "OverflowError"

/-- `fd_seek` (source lines 808-810): unconditionally `return 0` for every
descriptor, offset and whence. -/
def fd_seek (fd offset whence newoffset : Int) : Except String Int :=
  .ok 0

/-- `fd_close` (source lines 812-814): logs a warning and returns for
every descriptor. -/
def fd_close (fd : Int) : Except String Unit :=
  .ok ()

/-! ### The import satisfier: `construct_imports` and instantiation -/

/-- `construct_imports` (source lines 1868-1873): for each import the
module declares, in order, looks its name up in the fixed
`wasm_imports` dictionary (abstracted as the predicate `hasImport`) and
appends the bound host function; an absent name raises
`RuntimeError(f"{name} not found in wasm imports")`. -/
def construct_imports (hasImport : String → Bool) (imports : List String) :
    Except String (List String) :=
  match imports with
  | [] => .ok []
  | name :: rest =>
    if hasImport name then
      match construct_imports hasImport rest with
      | .ok arr => .ok (name :: arr)
      | .error e => .error e
    else .error (name ++ " not found in wasm imports")

/-- The instantiation step of `WebixDapperWasm.__init__` (source lines
138-144): `Instance(self.store, self.module, self.construct_imports())`
evaluates the import array first; only on success is the instance
created and its export table exposed (`true` marks an instantiated
module whose exports are callable). -/
def WebixDapperWasm_init (hasImport : String → Bool) (imports : List String) :
    Except String (List String × Bool) :=
  match construct_imports hasImport imports with
  | .ok arr => .ok (arr, true)
  | .error e => .error e

/-! ### Specification-side helper definitions used in theorem statements -/

/-- The data bytes `string_to_utf8_array` emits for a text: one byte per
character at consecutive addresses starting at `p`. -/
def expectedWrites : List Nat → Nat → List (Nat × Nat)
  | [], _ => []
  | c :: rest, p => (p, c) :: expectedWrites rest (p + 1)

/-- Set every listed index of `l` to `v` (the effect of running a batch of
`aw_dep` callbacks for one dependent id on `type_converters`). -/
def setSlots (l : List Nat) : List Nat → Nat → List Nat
  | [], _ => l
  | s :: rest, v => setSlots (l.set s v) rest v

/-- Absolute indices (starting at `i`) of the occurrences of `d` in a
dependent-type list: the slots whose `aw_dep` callbacks key on `d`. -/
def slotsAux (d : Nat) : List Nat → Nat → List Nat
  | [], _ => []
  | d' :: rest, i =>
    if d' = d then i :: slotsAux d rest (i + 1) else slotsAux d rest (i + 1)

/-- The converter captured for dependent id `d`: its converter in the
initial registry if it was registered before
`when_dependent_types_are_resolved`, otherwise the converter supplied by
the later registration recorded in `P` (`0` while still outstanding). -/
def cOf (reg P : List (Nat × Nat)) (d : Nat) : Nat :=
  match dictLookup reg d with
  | some c => c
  | none => (dictLookup P d).getD 0

/-- `len(unregistered_types)` produced by the
`when_dependent_types_are_resolved` scan: dependent-list entries (with
multiplicity) not yet in the registry. -/
def unregCount (reg : List (Nat × Nat)) (D : List Nat) : Nat :=
  (D.filter (fun d => (dictLookup reg d).isNone)).length

/-- The registry state reached from initial registry `reg` (and arbitrary
`type_dependencies` `td`) by one `when_dependent_types_are_resolved` call
for group `(M, D, gf)` followed by external registrations `P` of a
Nodup subset of the outstanding dependent ids, while the group has not
fired: characterizes `registered_types`, the `awaiting_dependencies`
lookups, the closure state, and the absence of completion events. -/
def groupInv (reg : List (Nat × Nat)) (M D : List Nat)
    (gf : List Nat → List Nat) (P : List (Nat × Nat)) (st : EmbindState) :
    Prop :=
  (∀ k, dictLookup st.registeredTypes k =
      match dictLookup P k with
      | some c => some c
      | none => dictLookup reg k)
  ∧ (∀ k, dictLookup st.awaiting k =
      if (dictLookup reg k).isNone = true ∧ k ∈ D ∧ dictLookup P k = none
      then some (slotsAux k D 0) else none)
  ∧ (∃ g, st.group = some g ∧ g.myTypes = M ∧ g.deps = D ∧
      g.getTypeConverters = gf ∧
      g.unregisteredCount = unregCount reg D ∧
      g.registered = ((D.filter (fun d => (dictLookup reg d).isNone)).filter
        (fun d => (dictLookup P d).isSome)).length ∧
      g.converters = D.map (cOf reg P))
  ∧ st.events = []

/-- A fresh registry state: initial `registered_types` `reg`, arbitrary
`type_dependencies` `td`, no pending callbacks, no pending group, no
completion events. -/
def embindInit (reg : List (Nat × Nat)) (td : List (Nat × List Nat)) :
    EmbindState :=
  { registeredTypes := reg, typeDependencies := td, awaiting := [],
    group := none, events := [] }

/-! ### Helper lemmas about `pySetExtend` -/

theorem pySetExtend_length (l : List PyVal) (i : Nat) (v : PyVal) :
    (pySetExtend l i v).length = max l.length (i + 1) := by
  unfold pySetExtend
  split
  · simp only [List.length_set]
    omega
  · simp only [List.length_append, List.length_replicate, List.length_cons,
      List.length_nil]
    omega

theorem pySetExtend_getElem_self (l : List PyVal) (i : Nat) (v : PyVal) :
    (pySetExtend l i v)[i]? = some v := by
  unfold pySetExtend
  split
  · exact List.getElem?_set_self (by assumption)
  · rw [List.append_assoc, List.getElem?_append_right (by omega)]
    rw [List.getElem?_append_right (by simp)]
    simp

theorem pySetExtend_getElem_lt (l : List PyVal) (i j : Nat) (v : PyVal)
    (hj : j < l.length) (hne : i ≠ j) :
    (pySetExtend l i v)[j]? = l[j]? := by
  unfold pySetExtend
  split
  · exact List.getElem?_set_ne hne
  · rw [List.append_assoc, List.getElem?_append_left hj]

theorem emval_read_after_set (l : List PyVal) (h : Nat) (v : PyVal)
    (fl : List Nat) :
    emval_to_value ⟨pySetExtend (pySetExtend l h v) (h + 1) (vInt 1), fl⟩ h
      = .ok v := by
  have h1 : h < (pySetExtend l h v).length := by
    rw [pySetExtend_length]; omega
  have h2 : (pySetExtend (pySetExtend l h v) (h + 1) (vInt 1))[h]? = some v := by
    rw [pySetExtend_getElem_lt _ _ _ _ h1 (by omega), pySetExtend_getElem_self]
  unfold emval_to_value
  rw [h2]

/-- C2: for every value `v` that is not one of the reserved constants
`None`/`True`/`False`, in any state whose table has been seeded
(`init_emval` makes it at least ten entries long),
`emval_to_value (emval_to_handle v)) == v` immediately after allocation —
including when the slot index was reused from the free list. -/
theorem emval_handle_roundtrip (s : EmvalState) (v : PyVal)
    (h1 : v ≠ PyVal.vNone) (h2 : v ≠ PyVal.vBool true)
    (h3 : v ≠ PyVal.vBool false) (hseed : 10 ≤ s.handles.length) :
    emval_to_value (emval_to_handle s v).2 (emval_to_handle s v).1 = .ok v := by
  unfold emval_to_handle
  rw [if_neg h1, if_neg h2, if_neg h3]
  exact emval_read_after_set s.handles (popOrLen s).1 v (popOrLen s).2

theorem emval_handle_roundtrip_witness :
    emval_to_value (emval_to_handle seededEmval (PyVal.vObj 7)).2
        (emval_to_handle seededEmval (PyVal.vObj 7)).1
      = .ok (PyVal.vObj 7) :=
  emval_handle_roundtrip seededEmval (PyVal.vObj 7)
    (by decide) (by decide) (by decide) (by decide)

/-- C1 (the code at the claim's failing input): the first handle allocated
after seeding is `10` with stored refcount `1`; a single `_emval_decref`
leaves the state completely unchanged — the slot is neither nulled nor
pushed onto the free list, because the source's chained comparison
`handle > 9 == item - 1` asks for a stored refcount of exactly `10` and
never decrements.  The `incref`-then-`decref` half of the claim does hold
(the slot is likewise not reclaimed, refcount left at `2`). -/
theorem emval_decref_fresh_slot_not_reclaimed :
    (emval_to_handle seededEmval (PyVal.vObj 0)).1 = 10
    ∧ (emval_to_handle seededEmval (PyVal.vObj 0)).2.handles[10]?
        = some (PyVal.vObj 0)
    ∧ (emval_to_handle seededEmval (PyVal.vObj 0)).2.handles[11]?
        = some (PyVal.vInt 1)
    ∧ emval_decref (emval_to_handle seededEmval (PyVal.vObj 0)).2 10
        = .ok (emval_to_handle seededEmval (PyVal.vObj 0)).2
    ∧ (emval_to_handle seededEmval (PyVal.vObj 0)).2.freelist = []
    ∧ ((emval_incref (emval_to_handle seededEmval (PyVal.vObj 0)).2 10).bind
          (fun s' => emval_decref s' 10))
        = .ok ⟨[PyVal.vInt 0, PyVal.vInt 1, PyVal.vNone, PyVal.vInt 1,
                PyVal.vNone, PyVal.vInt 1, PyVal.vBool true, PyVal.vInt 1,
                PyVal.vBool false, PyVal.vInt 1, PyVal.vObj 0, PyVal.vInt 2],
               []⟩ :=
  ⟨rfl, rfl, rfl, rfl, rfl, rfl⟩

theorem emval_decref_reserved_noop (s : EmvalState) (h : Nat) (hh : h ≤ 9)
    (item : PyVal) (hx : s.handles[h + 1]? = some item) :
    emval_decref s h = .ok s := by
  have hcond : ¬ (9 < h ∧ (9 : Int) = asInt item - 1) :=
    fun hc => absurd hc.1 (by omega)
  simp only [emval_decref, hx, if_neg hcond]
  split <;> rfl

theorem emval_incref_reserved_noop (s : EmvalState) (h : Nat) (hh : h ≤ 9)
    (item : PyVal) (hx : s.handles[h + 1]? = some item) :
    emval_incref s h = .ok s := by
  simp only [emval_incref, hx]
  split
  · rw [if_neg (by omega)]
  · rfl

theorem runEmvalOp_reserved (s : EmvalState) (op : EmvalOp)
    (hh : op.handle ≤ 9) :
    runEmvalOp s op = .ok s ∨ runEmvalOp s op = .error "IndexError" := by
  cases op with
  | incref h =>
    cases hx : s.handles[h + 1]? with
    | none =>
      refine Or.inr ?_
      show emval_incref s h = .error "IndexError"
      simp only [emval_incref, hx]
    | some item => exact Or.inl (emval_incref_reserved_noop s h hh item hx)
  | decref h =>
    cases hx : s.handles[h + 1]? with
    | none =>
      refine Or.inr ?_
      show emval_decref s h = .error "IndexError"
      simp only [emval_decref, hx]
    | some item => exact Or.inl (emval_decref_reserved_noop s h hh item hx)

theorem runEmvalOp_reserved_ok (s : EmvalState) (op : EmvalOp)
    (hh : op.handle ≤ 8) (hlen : 10 ≤ s.handles.length) :
    runEmvalOp s op = .ok s := by
  cases op with
  | incref h =>
    simp only [EmvalOp.handle] at hh
    obtain ⟨item, hx⟩ : ∃ item, s.handles[h + 1]? = some item :=
      ⟨_, List.getElem?_eq_getElem (by omega)⟩
    exact emval_incref_reserved_noop s h (by omega) item hx
  | decref h =>
    simp only [EmvalOp.handle] at hh
    obtain ⟨item, hx⟩ : ∃ item, s.handles[h + 1]? = some item :=
      ⟨_, List.getElem?_eq_getElem (by omega)⟩
    exact emval_decref_reserved_noop s h (by omega) item hx

/-- C6 (amended): for any interleaving of `_emval_incref`/`_emval_decref`
on handles `0..9`, no call ever changes the table or the free list —
each call either returns with the state exactly as it was or raises
`IndexError` (the reserved-range guard `handle > 9` is checked only
after reading the refcount slot `handle + 1`, so handle `9` traps when
the table holds just the ten seeded entries); restricted to handles
`0..8` on a seeded table, every interleaving completes without error
and leaves the state unchanged. -/
theorem reserved_handles_untouched :
    (∀ (s : EmvalState) (ops : List EmvalOp),
        (∀ op ∈ ops, op.handle ≤ 9) →
        runEmvalOps s ops = .ok s ∨ runEmvalOps s ops = .error "IndexError")
    ∧ (∀ (s : EmvalState) (ops : List EmvalOp),
        (∀ op ∈ ops, op.handle ≤ 8) → 10 ≤ s.handles.length →
        runEmvalOps s ops = .ok s) := by
  constructor
  · intro s ops hops
    induction ops with
    | nil => exact Or.inl rfl
    | cons op rest ih =>
      have hop := hops op (by simp)
      have hrest : ∀ o ∈ rest, o.handle ≤ 9 := fun o ho => hops o (by simp [ho])
      unfold runEmvalOps
      rcases runEmvalOp_reserved s op hop with heq | heq
      · rw [heq]
        exact ih hrest
      · rw [heq]
        exact Or.inr rfl
  · intro s ops hops hlen
    induction ops with
    | nil => rfl
    | cons op rest ih =>
      have hop := hops op (by simp)
      have hrest : ∀ o ∈ rest, o.handle ≤ 8 := fun o ho => hops o (by simp [ho])
      unfold runEmvalOps
      rw [runEmvalOp_reserved_ok s op hop hlen]
      exact ih hrest

theorem reserved_handles_untouched_witness :
    runEmvalOps seededEmval
        [EmvalOp.decref 0, EmvalOp.incref 8, EmvalOp.decref 5, EmvalOp.incref 0]
      = .ok seededEmval :=
  reserved_handles_untouched.2 seededEmval
    [EmvalOp.decref 0, EmvalOp.incref 8, EmvalOp.decref 5, EmvalOp.incref 0]
    (by decide) (by decide)

/-- C6 (counterexample to the claim as stated): on the freshly seeded
table, `_emval_decref 9` and `_emval_incref 9` do not complete without
error — both read `emval_handles[10]`, which does not exist, and raise
`IndexError`. -/
theorem reserved_handle_nine_raises :
    emval_decref seededEmval 9 = .error "IndexError"
    ∧ emval_incref seededEmval 9 = .error "IndexError" :=
  ⟨rfl, rfl⟩

/-! ### String codec theorems -/

theorem writeLoop_all_bytes (s : List Nat) (p : Nat)
    (h : ∀ c ∈ s, c < 256) :
    writeLoop s p = some (expectedWrites s p, p + s.length) := by
  induction s generalizing p with
  | nil => simp [writeLoop, expectedWrites]
  | cons c rest ih =>
    have hc : c < 256 := h c (by simp)
    have hrest : ∀ x ∈ rest, x < 256 := fun x hx => h x (by simp [hx])
    simp only [writeLoop, if_pos hc, ih (p + 1) hrest, expectedWrites]
    simp only [List.length_cons]
    have harith : p + 1 + rest.length = p + (rest.length + 1) := by omega
    rw [harith]

/-- C8: `string_to_utf8_array "hello" ptr 6` writes exactly the five data
bytes of `"hello"` at `ptr..ptr+4` followed by one NUL byte at `ptr+5`
and returns `5`; with any text and any capacity `<= 0` it writes nothing
and returns `0`. -/
theorem string_to_utf8_array_boundary (s : List Nat) (p q : Nat) (m : Int)
    (hm : m ≤ 0) :
    string_to_utf8_array s p m = some ([], 0)
    ∧ string_to_utf8_array [104, 101, 108, 108, 111] q 6
      = some ([(q, 104), (q + 1, 101), (q + 2, 108), (q + 3, 108),
               (q + 4, 111), (q + 5, 0)], 5) := by
  constructor
  · unfold string_to_utf8_array
    rw [if_pos (by omega)]
  · unfold string_to_utf8_array
    rw [if_neg (by norm_num)]
    rw [writeLoop_all_bytes _ _ (by decide)]
    simp [expectedWrites]

theorem string_to_utf8_array_boundary_witness :
    string_to_utf8_array [9999] 3 (-2) = some ([], 0)
    ∧ string_to_utf8_array [104, 101, 108, 108, 111] 7 6
      = some ([(7, 104), (7 + 1, 101), (7 + 2, 108), (7 + 3, 108),
               (7 + 4, 111), (7 + 5, 0)], 5) :=
  string_to_utf8_array_boundary [9999] 3 7 (-2) (by norm_num)

/-- C10 (counterexample to the claim as stated): the claim quantifies over
every text, but a character whose code point does not fit one byte (here
U+0100 = 256) makes `c.to_bytes(1, "little")` raise `OverflowError`
instead of writing `len(s) + 1` bytes and returning `len(s)`. -/
theorem string_to_utf8_array_overflow :
    string_to_utf8_array [256] 0 10 = none := rfl

/-- C10 (amended): for every text all of whose characters have code points
below 256 and every `max_bytes_to_write > 0`, `string_to_utf8_array`
writes exactly `len(s)` data bytes plus one trailing NUL starting at
`out_ptr` and returns `len(s)`, regardless of `max_bytes_to_write`: the
capacity is only checked for positivity and never enforced during the
write. -/
theorem string_to_utf8_array_ignores_capacity (s : List Nat) (p : Nat)
    (m : Int) (hm : 0 < m) (hchars : ∀ c ∈ s, c < 256) :
    string_to_utf8_array s p m
      = some (expectedWrites s p ++ [(p + s.length, 0)], s.length) := by
  unfold string_to_utf8_array
  rw [if_neg (not_not_intro hm)]
  rw [writeLoop_all_bytes s p hchars]
  simp

theorem string_to_utf8_array_ignores_capacity_witness :
    string_to_utf8_array [104, 105] 0 2
      = some (expectedWrites [104, 105] 0 ++ [(0 + [104, 105].length, 0)],
              [104, 105].length) :=
  string_to_utf8_array_ignores_capacity [104, 105] 0 2 (by norm_num) (by decide)

/-! ### `read_latin_1_string` theorem -/

/-- C3 (the code at the claim's failing input): the claim promises a
one-to-one Latin-1 decode with no failure on bytes `>= 0x80`, but the
source decodes each byte with Python's default UTF-8 `bytes.decode()`:
reading the NUL-terminated string `[0x80, 0x00]` raises
`UnicodeDecodeError` instead of returning `"\x80"`, while pure-ASCII
memory decodes as claimed (including the `max_bytes` cutoff). -/
theorem read_latin_1_string_high_byte_fails :
    read_latin_1_string [128, 0] 0 (-1) = .error "UnicodeDecodeError"
    ∧ read_latin_1_string [104, 105, 0] 0 (-1) = .ok "hi"
    ∧ read_latin_1_string [104, 105, 0] 0 1 = .ok "h" := by
  refine ⟨?_, ?_, ?_⟩ <;>
    simp [read_latin_1_string, readLatin1Loop, String.mk]

/-! ### Struct marshaler theorems -/

theorem findMissingField_single_omission (fields : List String)
    (o : List (String × PyVal)) (f : String) (hf : f ∈ fields)
    (hmiss : o.lookup f = none)
    (hrest : ∀ g ∈ fields, g ≠ f → (o.lookup g).isSome) :
    findMissingField fields o = some f := by
  induction fields with
  | nil => cases hf
  | cons fn rest ih =>
    by_cases hfn : fn = f
    · subst hfn
      simp only [findMissingField, hmiss, Option.isSome_none,
        Bool.false_eq_true, if_false]
    · have hsome := hrest fn (by simp) hfn
      have hfr : f ∈ rest := by
        rcases List.mem_cons.mp hf with h | h
        · exact absurd h.symm hfn
        · exact h
      have hrest' : ∀ g ∈ rest, g ≠ f → (o.lookup g).isSome :=
        fun g hg => hrest g (by simp [hg])
      simp only [findMissingField, hsome, if_true]
      exact ih hfr hrest'

/-- C5: for a finalized value-object converter with declared fields
`fields`, calling `to_wire_type` on a mapping `o` that lacks exactly the
declared field `f` (any single omission) raises
`ValueError("Missing field: <f>")` naming that field, and the error is
raised before the raw constructor runs: the effect trace is empty, so no
struct memory is allocated. -/
theorem to_wire_type_missing_field (fields : List String)
    (o : List (String × PyVal)) (f : String) (ds : Option (List Nat))
    (ctorPtr dtor : Nat) (hf : f ∈ fields) (hmiss : o.lookup f = none)
    (hrest : ∀ g ∈ fields, g ≠ f → (o.lookup g).isSome) :
    to_wire_type fields ds o ctorPtr dtor
      = (.error ("Missing field: " ++ f), []) := by
  unfold to_wire_type
  rw [findMissingField_single_omission fields o f hf hmiss hrest]

theorem to_wire_type_missing_field_witness :
    to_wire_type ["a", "b"] (some []) [("a", PyVal.vInt 5)] 64 7
      = (.error ("Missing field: " ++ "b"), []) :=
  to_wire_type_missing_field ["a", "b"] [("a", PyVal.vInt 5)] "b" (some [])
    64 7 (by decide) (by decide) (by decide)

/-! ### Import satisfier theorems -/

theorem construct_imports_first_missing (hasImport : String → Bool)
    (imports : List String) (m : String)
    (hm : imports.find? (fun n => !hasImport n) = some m) :
    construct_imports hasImport imports
      = .error (m ++ " not found in wasm imports") := by
  induction imports with
  | nil => simp [List.find?] at hm
  | cons name rest ih =>
    cases hn : hasImport name with
    | true =>
      have hm' : List.find? (fun n => !hasImport n) rest = some m := by
        simpa [List.find?, hn] using hm
      unfold construct_imports
      rw [if_pos hn, ih hm']
    | false =>
      have hm' : name = m := by simpa [List.find?, hn] using hm
      subst hm'
      unfold construct_imports
      rw [if_neg (by simp [hn])]

/-- C9: if the compiled module declares an import whose name is absent
from the fixed host-import dictionary, `WebixDapperWasm.__init__` fails
with a `RuntimeError` naming the (first) unresolved import while
building the import array, before `Instance(...)` runs — so no module
instance is created and no export ever becomes callable. -/
theorem unresolved_import_fatal (hasImport : String → Bool)
    (imports : List String) (m : String)
    (hm : imports.find? (fun n => !hasImport n) = some m) :
    WebixDapperWasm_init hasImport imports
      = .error (m ++ " not found in wasm imports") := by
  unfold WebixDapperWasm_init
  rw [construct_imports_first_missing hasImport imports m hm]

theorem unresolved_import_fatal_witness :
    WebixDapperWasm_init (fun n => n == "memory") ["memory", "fd_write"]
      = .error ("fd_write" ++ " not found in wasm imports") :=
  unresolved_import_fatal (fun n => n == "memory") ["memory", "fd_write"]
    "fd_write" (by decide)

/-! ### File-descriptor import theorems -/

theorem fdWriteBytes_bad_fd (fd : Int) (h1 : fd ≠ 1) (h2 : fd ≠ 2)
    (b : Nat) (rest : List Nat) :
    fdWriteBytes fd (b :: rest)
      = .error ("Unknown file descriptor " ++ toString fd) := by
  unfold fdWriteBytes
  rw [if_neg (by tauto)]

theorem fdWriteLoop_bad_fd (mem : Nat → Nat) (fd : Int) (h1 : fd ≠ 1)
    (h2 : fd ≠ 2) :
    ∀ (iovcnt iov num : Nat) (out : List (Int × Nat)),
      (∃ i, i < iovcnt ∧ 0 < read4 mem (iov + 8 * i + 4)) →
      fdWriteLoop mem fd iov iovcnt num out
        = .error ("Unknown file descriptor " ++ toString fd) := by
  intro iovcnt
  induction iovcnt with
  | zero =>
    rintro iov num out ⟨i, hi, _⟩
    omega
  | succ n ih =>
    rintro iov num out ⟨i, hi, hlen⟩
    unfold fdWriteLoop
    by_cases h0 : 0 < read4 mem (iov + 4)
    · obtain ⟨k, hk⟩ :=
        Nat.exists_eq_succ_of_ne_zero (by omega : read4 mem (iov + 4) ≠ 0)
      rw [hk, List.range_succ_eq_map, List.map_cons,
        fdWriteBytes_bad_fd fd h1 h2 _ _]
    · have hi0 : i ≠ 0 := by
        intro h
        subst h
        simp only [Nat.mul_zero, Nat.add_zero] at hlen
        omega
      have hz : read4 mem (iov + 4) = 0 := by omega
      rw [hz]
      simp only [List.range_zero, List.map_nil]
      show fdWriteLoop mem fd (iov + 8) n (num + 0) (out ++ []) = _
      apply ih
      refine ⟨i - 1, by omega, ?_⟩
      have harith : iov + 8 + 8 * (i - 1) + 4 = iov + 8 * i + 4 := by omega
      rw [harith]
      exact hlen

/-- C7 (amended): only `fd_write` enforces the stdout/stderr restriction,
and only when at least one byte is actually transferred: with
`fd ∉ {1, 2}` and some iovec of nonzero length it raises
`ValueError("Unknown file descriptor ...")`; `fd_seek` returns `0` and
`fd_close` returns normally (logging only) for every descriptor — they
never fail. -/
theorem fd_descriptor_checks :
    (∀ (mem : Nat → Nat) (fd : Int) (iov iovcnt pnum : Nat),
        fd ≠ 1 → fd ≠ 2 →
        (∃ i, i < iovcnt ∧ 0 < read4 mem (iov + 8 * i + 4)) →
        fd_write mem fd iov iovcnt pnum
          = .error ("Unknown file descriptor " ++ toString fd))
    ∧ (∀ fd offset whence newoffset : Int,
        fd_seek fd offset whence newoffset = .ok 0)
    ∧ (∀ fd : Int, fd_close fd = .ok ()) := by
  refine ⟨?_, fun _ _ _ _ => rfl, fun _ => rfl⟩
  intro mem fd iov iovcnt pnum h1 h2 hex
  unfold fd_write
  rw [fdWriteLoop_bad_fd mem fd h1 h2 iovcnt iov 0 [] hex]

theorem fd_descriptor_checks_witness :
    fd_write (fun _ => 1) 3 0 1 0
      = .error ("Unknown file descriptor " ++ toString (3 : Int))
    ∧ fd_seek 3 0 0 0 = .ok 0 ∧ fd_close 3 = .ok () :=
  ⟨fd_descriptor_checks.1 (fun _ => 1) 3 0 1 0 (by decide) (by decide)
      ⟨0, by norm_num, by norm_num [read4]⟩,
   fd_descriptor_checks.2.1 3 0 0 0, fd_descriptor_checks.2.2 3⟩

/-- C7 (counterexample to the claim as stated): descriptors other than
stdout/stderr do not fail across the three imports — `fd_seek(3, ...)`
returns `0`, `fd_close(3)` returns normally, and even `fd_write` with
descriptor `3` succeeds when the single iovec has length zero. -/
theorem fd_seek_close_accept_any_descriptor :
    fd_seek 3 0 0 0 = .ok 0
    ∧ fd_close 3 = .ok ()
    ∧ fd_write (fun _ => 0) 3 0 1 0
        = .ok (0, [], [(0, 0), (1, 0), (2, 0), (3, 0)]) :=
  ⟨rfl, rfl, rfl⟩

/-! ### Dictionary lemmas for the embind registry -/

theorem dictLookup_insert_self {α : Type} (l : List (Nat × α)) (k : Nat)
    (v : α) : dictLookup (dictInsert l k v) k = some v := by
  simp [dictInsert, dictLookup]

theorem dictLookup_insert_ne {α : Type} (l : List (Nat × α)) (k k' : Nat)
    (v : α) (h : k' ≠ k) :
    dictLookup (dictInsert l k v) k' = dictLookup l k' := by
  show (if k = k' then some v else dictLookup l k') = dictLookup l k'
  rw [if_neg (Ne.symm h)]

theorem dictLookup_remove_self {α : Type} (l : List (Nat × α)) (k : Nat) :
    dictLookup (dictRemove l k) k = none := by
  induction l with
  | nil => rfl
  | cons p rest ih =>
    by_cases hp : p.1 = k
    · show dictLookup (if p.1 = k then _ else _) k = none
      rw [if_pos hp]
      exact ih
    · show dictLookup (if p.1 = k then _ else _) k = none
      rw [if_neg hp]
      show (if p.1 = k then some p.2 else dictLookup (dictRemove rest k) k) = none
      rw [if_neg hp]
      exact ih

theorem dictLookup_remove_ne {α : Type} (l : List (Nat × α)) (k k' : Nat)
    (h : k' ≠ k) : dictLookup (dictRemove l k) k' = dictLookup l k' := by
  induction l with
  | nil => rfl
  | cons p rest ih =>
    by_cases hp : p.1 = k
    · have hp' : ¬ p.1 = k' := by rw [hp]; exact fun hx => h hx.symm
      show dictLookup (if p.1 = k then _ else _) k' = _
      rw [if_pos hp]
      show dictLookup (dictRemove rest k) k'
        = (if p.1 = k' then some p.2 else dictLookup rest k')
      rw [if_neg hp', ih]
    · show dictLookup (if p.1 = k then _ else _) k' = _
      rw [if_neg hp]
      show (if p.1 = k' then some p.2 else dictLookup (dictRemove rest k) k')
        = (if p.1 = k' then some p.2 else dictLookup rest k')
      rw [ih]

theorem dictLookup_eq_none_of_not_mem {α : Type} (l : List (Nat × α))
    (k : Nat) (h : k ∉ l.map Prod.fst) : dictLookup l k = none := by
  induction l with
  | nil => rfl
  | cons p rest ih =>
    have h1 : ¬ p.1 = k := fun hx => h (by simp [hx])
    have h2 : k ∉ rest.map Prod.fst := fun hx => h (by simp [hx])
    simpa [dictLookup, h1] using ih h2

theorem dictLookup_append {α : Type} (A B : List (Nat × α)) (k : Nat) :
    dictLookup (A ++ B) k
      = match dictLookup A k with
        | some c => some c
        | none => dictLookup B k := by
  induction A with
  | nil => rfl
  | cons p rest ih =>
    by_cases hp : p.1 = k
    · simp [dictLookup, hp]
    · simpa [dictLookup, hp] using ih

theorem dictLookup_foldl_insert (L : List (Nat × Nat)) (P : List (Nat × Nat))
    (k : Nat) (hnd : (L.map Prod.fst).Nodup) :
    dictLookup (L.foldl (fun a p => dictInsert a p.1 p.2) P) k
      = match dictLookup L k with
        | some c => some c
        | none => dictLookup P k := by
  induction L generalizing P with
  | nil => rfl
  | cons p rest ih =>
    have hnd' : (rest.map Prod.fst).Nodup := (List.nodup_cons.mp hnd).2
    have hp : p.1 ∉ rest.map Prod.fst := (List.nodup_cons.mp hnd).1
    show dictLookup (rest.foldl (fun a q => dictInsert a q.1 q.2)
        (dictInsert P p.1 p.2)) k = _
    rw [ih (dictInsert P p.1 p.2) hnd']
    by_cases hk : p.1 = k
    · subst hk
      rw [dictLookup_eq_none_of_not_mem rest p.1 hp]
      show dictLookup (dictInsert P p.1 p.2) p.1 = _
      rw [dictLookup_insert_self]
      simp [dictLookup]
    · rw [dictLookup_insert_ne P p.1 k p.2 (fun hx => hk hx.symm)]
      cases hr : dictLookup rest k with
      | none => simp [dictLookup, hk, hr]
      | some c => simp [dictLookup, hk, hr]

theorem dictLookup_awAppend_self (aw : List (Nat × List Nat)) (k slot : Nat) :
    dictLookup (awAppend aw k slot) k
      = some ((dictLookup aw k).getD [] ++ [slot]) := by
  induction aw with
  | nil =>
    show (if k = k then some [slot] else none)
      = some ((none : Option (List Nat)).getD [] ++ [slot])
    rw [if_pos rfl]
    rfl
  | cons p rest ih =>
    obtain ⟨a, s⟩ := p
    show dictLookup
        (if a = k then (a, s ++ [slot]) :: rest
         else (a, s) :: awAppend rest k slot) k
      = some ((if a = k then some s else dictLookup rest k).getD [] ++ [slot])
    by_cases ha : a = k
    · rw [if_pos ha, if_pos ha]
      show (if a = k then some (s ++ [slot]) else dictLookup rest k) = _
      rw [if_pos ha]
      rfl
    · rw [if_neg ha, if_neg ha]
      show (if a = k then some s
            else dictLookup (awAppend rest k slot) k)
        = some ((dictLookup rest k).getD [] ++ [slot])
      rw [if_neg ha]
      exact ih

theorem dictLookup_awAppend_ne (aw : List (Nat × List Nat)) (k k' slot : Nat)
    (h : k' ≠ k) :
    dictLookup (awAppend aw k slot) k' = dictLookup aw k' := by
  induction aw with
  | nil =>
    show (if k = k' then some [slot] else none) = none
    rw [if_neg (Ne.symm h)]
  | cons p rest ih =>
    obtain ⟨a, s⟩ := p
    show dictLookup
        (if a = k then (a, s ++ [slot]) :: rest
         else (a, s) :: awAppend rest k slot) k'
      = (if a = k' then some s else dictLookup rest k')
    by_cases ha : a = k
    · rw [if_pos ha]
      have ha' : ¬ a = k' := by rw [ha]; exact Ne.symm h
      show (if a = k' then some (s ++ [slot]) else dictLookup rest k') = _
      rw [if_neg ha', if_neg ha']
    · rw [if_neg ha]
      show (if a = k' then some s else dictLookup (awAppend rest k slot) k') = _
      rw [ih]

/-! ### `slotsAux` and `setSlots` lemmas -/

theorem slotsAux_nil_of_not_mem (d : Nat) (deps : List Nat) (i : Nat)
    (h : d ∉ deps) : slotsAux d deps i = [] := by
  induction deps generalizing i with
  | nil => rfl
  | cons d' rest ih =>
    have hd' : ¬ d' = d := fun hx => h (by simp [hx])
    have hr : d ∉ rest := fun hx => h (by simp [hx])
    simpa [slotsAux, hd'] using ih (i + 1) hr

theorem slotsAux_ne_nil_of_mem (d : Nat) (deps : List Nat) (i : Nat)
    (h : d ∈ deps) : slotsAux d deps i ≠ [] := by
  induction deps generalizing i with
  | nil => cases h
  | cons d' rest ih =>
    by_cases hd' : d' = d
    · simp [slotsAux, hd']
    · have hr : d ∈ rest := by
        rcases List.mem_cons.mp h with hx | hx
        · exact absurd hx.symm hd'
        · exact hx
      simpa [slotsAux, hd'] using ih (i + 1) hr

theorem slotsAux_length (d : Nat) (deps : List Nat) (i : Nat) :
    (slotsAux d deps i).length = (deps.filter (fun x => x = d)).length := by
  induction deps generalizing i with
  | nil => rfl
  | cons d' rest ih =>
    by_cases hd' : d' = d
    · simp [slotsAux, hd', List.filter, ih (i + 1)]
    · simp [slotsAux, hd', List.filter, ih (i + 1)]

theorem slotsAux_mem (d : Nat) (deps : List Nat) :
    ∀ (i j : Nat), j ∈ slotsAux d deps i ↔
      (i ≤ j ∧ j - i < deps.length ∧ deps[j - i]? = some d) := by
  induction deps with
  | nil => intro i j; simp [slotsAux]
  | cons d' rest ih =>
    intro i j
    show j ∈ (if d' = d then i :: slotsAux d rest (i + 1)
              else slotsAux d rest (i + 1)) ↔ _
    by_cases hd' : d' = d
    · rw [if_pos hd', List.mem_cons, ih (i + 1) j]
      constructor
      · rintro (rfl | ⟨h1, h2, h3⟩)
        · refine ⟨le_refl j, by simp, ?_⟩
          rw [Nat.sub_self, List.getElem?_cons_zero, hd']
        · refine ⟨by omega, by simp only [List.length_cons]; omega, ?_⟩
          have hji : j - i = (j - (i + 1)) + 1 := by omega
          rw [hji, List.getElem?_cons_succ]
          exact h3
      · rintro ⟨h1, h2, h3⟩
        by_cases hji : j = i
        · exact Or.inl hji
        · refine Or.inr ⟨by omega, ?_, ?_⟩
          · simp only [List.length_cons] at h2; omega
          · have hji' : j - i = (j - (i + 1)) + 1 := by omega
            rw [hji', List.getElem?_cons_succ] at h3
            exact h3
    · rw [if_neg hd', ih (i + 1) j]
      constructor
      · rintro ⟨h1, h2, h3⟩
        refine ⟨by omega, by simp only [List.length_cons]; omega, ?_⟩
        have hji : j - i = (j - (i + 1)) + 1 := by omega
        rw [hji, List.getElem?_cons_succ]
        exact h3
      · rintro ⟨h1, h2, h3⟩
        have hji : ¬ j = i := by
          intro hx
          subst hx
          rw [Nat.sub_self, List.getElem?_cons_zero] at h3
          injection h3 with h3
          exact hd' h3
        refine ⟨by omega, ?_, ?_⟩
        · simp only [List.length_cons] at h2; omega
        · have hji' : j - i = (j - (i + 1)) + 1 := by omega
          rw [hji', List.getElem?_cons_succ] at h3
          exact h3

theorem slotsAux_mem_zero (d : Nat) (deps : List Nat) (j : Nat) :
    j ∈ slotsAux d deps 0 ↔ deps[j]? = some d := by
  rw [slotsAux_mem]
  constructor
  · rintro ⟨_, _, h⟩
    simpa using h
  · intro h
    have hj : j < deps.length := by
      by_contra hx
      rw [List.getElem?_eq_none (by omega)] at h
      cases h
    exact ⟨Nat.zero_le j, by simpa using hj, by simpa using h⟩

theorem setSlots_length (slots : List Nat) (l : List Nat) (v : Nat) :
    (setSlots l slots v).length = l.length := by
  induction slots generalizing l with
  | nil => rfl
  | cons s rest ih => simp [setSlots, ih, List.length_set]

theorem setSlots_getElem (slots : List Nat) (l : List Nat) (v : Nat)
    (j : Nat) :
    (setSlots l slots v)[j]?
      = if j ∈ slots ∧ j < l.length then some v else l[j]? := by
  induction slots generalizing l with
  | nil => simp [setSlots]
  | cons s rest ih =>
    show (setSlots (l.set s v) rest v)[j]? = _
    rw [ih (l.set s v)]
    by_cases hjr : j ∈ rest
    · by_cases hjl : j < l.length
      · simp [hjr, hjl, List.length_set]
      · have hln : l[j]? = none := List.getElem?_eq_none (by omega)
        have hsn : (l.set s v)[j]? = none :=
          List.getElem?_eq_none (by rw [List.length_set]; omega)
        rw [if_neg (by rw [List.length_set]; exact fun hc => hjl hc.2),
          if_neg (fun hc => hjl hc.2), hsn, hln]
    · by_cases hjs : j = s
      · subst hjs
        by_cases hjl : j < l.length
        · simp [hjr, hjl, List.length_set, List.getElem?_set_self hjl]
        · have : l[j]? = none := List.getElem?_eq_none (by omega)
          simp [hjr, hjl, List.length_set, this, List.getElem?_set]
      · simp [hjr, hjs, List.length_set,
          List.getElem?_set_ne (fun hx => hjs hx.symm)]

/-! ### Counting lemmas for the `registered == len(unregistered_types)`
accounting -/

theorem filter_insert_count (U : List Nat) (P : List (Nat × Nat)) (d c : Nat)
    (hd : dictLookup P d = none) :
    (U.filter (fun x => (dictLookup (dictInsert P d c) x).isSome)).length
      = (U.filter (fun x => (dictLookup P x).isSome)).length
        + (U.filter (fun x => x = d)).length := by
  induction U with
  | nil => rfl
  | cons x rest ih =>
    rw [List.filter_cons, List.filter_cons, List.filter_cons]
    by_cases hx : x = d
    · subst hx
      rw [dictLookup_insert_self]
      simp only [hd, Option.isSome_some, Option.isSome_none, decide_True,
        if_true, Bool.false_eq_true, if_false, List.length_cons, ih]
      omega
    · rw [dictLookup_insert_ne P d x c hx]
      by_cases hsome : (dictLookup P x).isSome
      · simp only [hsome, if_true, hx, decide_False, Bool.false_eq_true,
          if_false, List.length_cons, ih]
        omega
      · simp only [hsome, Bool.false_eq_true, if_false, hx, decide_False, ih]

theorem filter_unreg_filter_eq (D : List Nat) (reg : List (Nat × Nat))
    (d : Nat) (hunreg : (dictLookup reg d).isNone = true) :
    ((D.filter (fun x => (dictLookup reg x).isNone)).filter
        (fun x => x = d)).length
      = (D.filter (fun x => x = d)).length := by
  induction D with
  | nil => rfl
  | cons x rest ih =>
    rw [List.filter_cons]
    by_cases hx : x = d
    · subst hx
      rw [if_pos (by simp [hunreg]), List.filter_cons, if_pos (by simp),
        List.filter_cons, if_pos (by simp)]
      simp only [List.length_cons, ih]
    · by_cases hu : (dictLookup reg x).isNone
      · rw [if_pos (by simp [hu]), List.filter_cons, if_neg (by simp [hx]),
          List.filter_cons, if_neg (by simp [hx])]
        exact ih
      · rw [if_neg (by simp [hu]), List.filter_cons, if_neg (by simp [hx])]
        exact ih

theorem filter_length_lt_of_mem_not (U : List Nat) (p : Nat → Bool) (u : Nat)
    (hu : u ∈ U) (hp : p u = false) :
    (U.filter p).length < U.length := by
  induction U with
  | nil => cases hu
  | cons x rest ih =>
    rw [List.filter_cons]
    by_cases hx : x = u
    · subst hx
      rw [hp]
      simp only [Bool.false_eq_true, if_false, List.length_cons]
      have := List.length_filter_le p rest
      omega
    · have hur : u ∈ rest := by
        rcases List.mem_cons.mp hu with h | h
        · exact absurd h.symm hx
        · exact h
      by_cases hpx : p x
      · rw [if_pos hpx]
        simp only [List.length_cons]
        have := ih hur
        omega
      · rw [if_neg hpx]
        have := ih hur
        simp only [List.length_cons]
        omega

theorem unregCount_ne_zero (reg : List (Nat × Nat)) (D : List Nat) (u : Nat)
    (hu : u ∈ D) (hunreg : (dictLookup reg u).isNone = true) :
    unregCount reg D ≠ 0 := by
  have hmem : u ∈ D.filter (fun x => (dictLookup reg x).isNone) :=
    List.mem_filter.mpr ⟨hu, hunreg⟩
  unfold unregCount
  intro h
  rw [List.length_eq_zero] at h
  rw [h] at hmem
  cases hmem

/-! ### Characterization of the `when_dependent_types_are_resolved` scan -/

theorem wdtarBuild_converters (reg : List (Nat × Nat)) (deps : List Nat) :
    ∀ (i : Nat) (aw : List (Nat × List Nat)),
      (wdtarBuild reg deps i aw).1
        = deps.map (fun d => (dictLookup reg d).getD 0) := by
  induction deps with
  | nil => intro i aw; rfl
  | cons d rest ih =>
    intro i aw
    cases hc : dictLookup reg d with
    | some c => simp [wdtarBuild, hc, ih]
    | none => simp [wdtarBuild, hc, ih]

theorem wdtarBuild_count (reg : List (Nat × Nat)) (deps : List Nat) :
    ∀ (i : Nat) (aw : List (Nat × List Nat)),
      (wdtarBuild reg deps i aw).2.1 = unregCount reg deps := by
  induction deps with
  | nil => intro i aw; rfl
  | cons d rest ih =>
    intro i aw
    cases hc : dictLookup reg d with
    | some c =>
      simp only [wdtarBuild, hc]
      rw [ih]
      unfold unregCount
      rw [List.filter_cons, if_neg (by simp [hc])]
    | none =>
      simp only [wdtarBuild, hc]
      rw [ih]
      unfold unregCount
      rw [List.filter_cons, if_pos (by simp [hc])]
      simp

theorem wdtarBuild_awaiting (reg : List (Nat × Nat)) (deps : List Nat) :
    ∀ (i : Nat) (aw : List (Nat × List Nat)) (k : Nat),
      dictLookup (wdtarBuild reg deps i aw).2.2 k
        = if (dictLookup reg k).isNone = true ∧ k ∈ deps
          then some ((dictLookup aw k).getD [] ++ slotsAux k deps i)
          else dictLookup aw k := by
  induction deps with
  | nil =>
    intro i aw k
    simp [wdtarBuild]
  | cons d rest ih =>
    intro i aw k
    cases hc : dictLookup reg d with
    | some c =>
      simp only [wdtarBuild, hc]
      rw [ih (i + 1) aw k]
      by_cases hk : (dictLookup reg k).isNone = true ∧ k ∈ rest
      · have hkd : ¬ d = k := by
          intro h
          subst h
          rw [hc] at hk
          simp at hk
        have hslots : slotsAux k (d :: rest) i = slotsAux k rest (i + 1) := by
          show (if d = k then i :: slotsAux k rest (i + 1)
                else slotsAux k rest (i + 1)) = _
          rw [if_neg hkd]
        rw [if_pos hk, if_pos ⟨hk.1, List.mem_cons_of_mem d hk.2⟩, hslots]
      · rw [if_neg hk]
        have hk2 : ¬ ((dictLookup reg k).isNone = true ∧ k ∈ d :: rest) := by
          intro hx
          rcases List.mem_cons.mp hx.2 with h | h
          · subst h
            rw [hc] at hx
            simp at hx
          · exact hk ⟨hx.1, h⟩
        rw [if_neg hk2]
    | none =>
      simp only [wdtarBuild, hc]
      rw [ih (i + 1) (awAppend aw d i) k]
      by_cases hkd : k = d
      · subst hkd
        have hunreg : (dictLookup reg k).isNone = true := by rw [hc]; rfl
        have hslots : slotsAux k (k :: rest) i = i :: slotsAux k rest (i + 1) := by
          show (if k = k then i :: slotsAux k rest (i + 1)
                else slotsAux k rest (i + 1)) = _
          rw [if_pos rfl]
        by_cases hkr : k ∈ rest
        · rw [if_pos ⟨hunreg, hkr⟩,
            if_pos ⟨hunreg, List.mem_cons_self k rest⟩,
            hslots, dictLookup_awAppend_self]
          simp
        · rw [if_neg (fun hx => hkr hx.2),
            if_pos ⟨hunreg, List.mem_cons_self k rest⟩,
            hslots, dictLookup_awAppend_self,
            slotsAux_nil_of_not_mem k rest (i + 1) hkr]
      · rw [dictLookup_awAppend_ne aw d k i hkd]
        have hslots : slotsAux k (d :: rest) i = slotsAux k rest (i + 1) := by
          show (if d = k then i :: slotsAux k rest (i + 1)
                else slotsAux k rest (i + 1)) = _
          rw [if_neg (fun hx => hkd hx.symm)]
        by_cases hk : (dictLookup reg k).isNone = true ∧ k ∈ rest
        · rw [if_pos hk, if_pos ⟨hk.1, List.mem_cons_of_mem d hk.2⟩, hslots]
        · rw [if_neg hk]
          have hk2 : ¬ ((dictLookup reg k).isNone = true ∧ k ∈ d :: rest) := by
            intro hx
            rcases List.mem_cons.mp hx.2 with h | h
            · exact hkd h
            · exact hk ⟨hx.1, h⟩
          rw [if_neg hk2]

theorem cOf_empty (reg : List (Nat × Nat)) (d : Nat) :
    cOf reg [] d = (dictLookup reg d).getD 0 := by
  unfold cOf
  cases dictLookup reg d <;> rfl

theorem setSlots_map_cOf (reg P : List (Nat × Nat)) (D : List Nat) (d c : Nat)
    (hunreg : (dictLookup reg d).isNone = true)
    (hdP : dictLookup P d = none) :
    setSlots (D.map (cOf reg P)) (slotsAux d D 0) c
      = D.map (cOf reg (dictInsert P d c)) := by
  apply List.ext_getElem?
  intro j
  rw [setSlots_getElem]
  by_cases hj : j ∈ slotsAux d D 0
  · have hDj : D[j]? = some d := (slotsAux_mem_zero d D j).mp hj
    have hjlen : j < D.length := by
      by_contra hx
      rw [List.getElem?_eq_none (by omega)] at hDj
      cases hDj
    rw [if_pos ⟨hj, by rw [List.length_map]; exact hjlen⟩,
      List.getElem?_map, hDj]
    show some c = Option.map (cOf reg (dictInsert P d c)) (some d)
    rw [Option.map_some']
    unfold cOf
    cases hr : dictLookup reg d with
    | some x => rw [hr] at hunreg; cases hunreg
    | none => rw [dictLookup_insert_self]; rfl
  · rw [if_neg (fun hx => hj hx.1), List.getElem?_map, List.getElem?_map]
    cases hDj : D[j]? with
    | none => rfl
    | some x =>
      have hxd : ¬ x = d := by
        intro h
        subst h
        exact hj ((slotsAux_mem_zero x D j).mpr hDj)
      rw [Option.map_some', Option.map_some']
      show some (cOf reg P x) = some (cOf reg (dictInsert P d c) x)
      unfold cOf
      rw [dictLookup_insert_ne P d x c hxd]

theorem registered_after_insert (reg P : List (Nat × Nat)) (D : List Nat)
    (d c : Nat) (hunreg : (dictLookup reg d).isNone = true)
    (hdP : dictLookup P d = none) :
    ((D.filter (fun x => (dictLookup reg x).isNone)).filter
        (fun x => (dictLookup (dictInsert P d c) x).isSome)).length
      = ((D.filter (fun x => (dictLookup reg x).isNone)).filter
          (fun x => (dictLookup P x).isSome)).length
        + (slotsAux d D 0).length := by
  rw [filter_insert_count _ P d c hdP, slotsAux_length,
    filter_unreg_filter_eq D reg d hunreg]

theorem registered_lt_total (reg P : List (Nat × Nat)) (D : List Nat)
    (u : Nat) (hu : u ∈ D) (huunreg : (dictLookup reg u).isNone = true)
    (huP : dictLookup P u = none) :
    ((D.filter (fun x => (dictLookup reg x).isNone)).filter
        (fun x => (dictLookup P x).isSome)).length < unregCount reg D := by
  unfold unregCount
  exact filter_length_lt_of_mem_not _ _ u
    (List.mem_filter.mpr ⟨hu, huunreg⟩) (by simp [huP])

theorem registered_eq_total (reg P : List (Nat × Nat)) (D : List Nat)
    (hall : ∀ u ∈ D, (dictLookup reg u).isNone = true →
      (dictLookup P u).isSome = true) :
    ((D.filter (fun x => (dictLookup reg x).isNone)).filter
        (fun x => (dictLookup P x).isSome)).length = unregCount reg D := by
  unfold unregCount
  rw [List.filter_eq_self.mpr]
  intro x hx
  have hm := List.mem_filter.mp hx
  exact hall x hm.1 hm.2

/-! ### Behaviour of the `aw_dep` callback batches -/

theorem runCallbacksWith_sets
    (regFn : EmbindState → Nat → Nat → Bool → Except String EmbindState)
    (rt : List (Nat × Nat)) (td : List (Nat × List Nat))
    (aw : List (Nat × List Nat)) (ev : List (List Nat)) (dtId c : Nat) :
    ∀ (slots : List Nat) (g : GroupSt),
      dictLookup rt dtId = some c →
      g.registered + slots.length < g.unregisteredCount →
      runCallbacksWith regFn ⟨rt, td, aw, some g, ev⟩ dtId slots
        = .ok ⟨rt, td, aw,
            some { g with converters := setSlots g.converters slots c,
                          registered := g.registered + slots.length }, ev⟩ := by
  intro slots
  induction slots with
  | nil => intro g hc hlt; rfl
  | cons s rest ih =>
    intro g hc hlt
    have hlt1 : ¬ (g.registered + 1 = g.unregisteredCount) := by
      simp only [List.length_cons] at hlt
      omega
    simp only [runCallbacksWith, hc]
    rw [if_neg hlt1]
    rw [ih _ hc (by simp only [List.length_cons] at hlt ⊢; omega)]
    have harith : g.registered + 1 + rest.length
        = g.registered + (s :: rest).length := by
      simp only [List.length_cons]
      omega
    rw [harith]
    rfl

theorem runCallbacksWith_fire
    (regFn : EmbindState → Nat → Nat → Bool → Except String EmbindState)
    (rt : List (Nat × Nat)) (td : List (Nat × List Nat))
    (aw : List (Nat × List Nat)) (ev : List (List Nat)) (dtId c : Nat) :
    ∀ (slots : List Nat) (g : GroupSt),
      dictLookup rt dtId = some c →
      slots ≠ [] →
      g.registered + slots.length = g.unregisteredCount →
      runCallbacksWith regFn ⟨rt, td, aw, some g, ev⟩ dtId slots
        = fireGroupWith regFn
            ⟨rt, td, aw,
             some { g with converters := setSlots g.converters slots c,
                           registered := g.unregisteredCount }, ev⟩
            { g with converters := setSlots g.converters slots c,
                     registered := g.unregisteredCount } := by
  intro slots
  induction slots with
  | nil => intro g hc hne hfe; exact absurd rfl hne
  | cons s rest ih =>
    intro g hc hne hfe
    simp only [runCallbacksWith, hc]
    cases hrest : rest with
    | nil =>
      subst hrest
      have hfire : g.registered + 1 = g.unregisteredCount := by
        simpa using hfe
      rw [if_pos hfire, hfire]
      cases hf : fireGroupWith regFn
          ⟨rt, td, aw,
           some { g with converters := g.converters.set s c,
                         registered := g.unregisteredCount }, ev⟩
          { g with converters := g.converters.set s c,
                   registered := g.unregisteredCount } with
      | ok st'' => exact hf.symm
      | error e => exact hf.symm
    | cons s2 rest2 =>
      have hnofire : ¬ (g.registered + 1 = g.unregisteredCount) := by
        rw [hrest] at hfe
        simp only [List.length_cons] at hfe
        omega
      rw [if_neg hnofire]
      rw [← hrest]
      rw [ih _ hc (by rw [hrest]; exact fun h => List.noConfusion h)
        (by simp only [List.length_cons] at hfe ⊢; omega)]
      rfl

theorem regListWith_preserves (fuel : Nat) :
    ∀ (ps : List (Nat × Nat)) (rt : List (Nat × Nat))
      (td : List (Nat × List Nat)) (aw : List (Nat × List Nat))
      (gg : Option GroupSt) (ev : List (List Nat)),
      (∀ p ∈ ps, p.1 ≠ 0 ∧ dictLookup aw p.1 = none) →
      ∃ rt' td',
        regListWith (sharedRegisterType (fuel + 1)) ⟨rt, td, aw, gg, ev⟩ ps
          = .ok ⟨rt', td', aw, gg, ev⟩ := by
  intro ps
  induction ps with
  | nil => intro rt td aw gg ev _; exact ⟨rt, td, rfl⟩
  | cons p rest ih =>
    intro rt td aw gg ev h
    obtain ⟨hp0, hpaw⟩ := h p (List.mem_cons_self p rest)
    have hstep : sharedRegisterType (fuel + 1) ⟨rt, td, aw, gg, ev⟩ p.1 p.2 false
        = .ok ⟨dictInsert rt p.1 p.2, dictRemove td p.1, aw, gg, ev⟩ := by
      simp only [sharedRegisterType]
      rw [if_neg hp0, if_neg (fun hx => by simpa using hx.2)]
      simp only [hpaw]
    obtain ⟨rt', td', hrest⟩ :=
      ih (dictInsert rt p.1 p.2) (dictRemove td p.1) aw gg ev
        (fun q hq => h q (List.mem_cons_of_mem p hq))
    refine ⟨rt', td', ?_⟩
    simp only [regListWith, hstep, hrest]

theorem fireGroupWith_fires (fuel : Nat) (rt : List (Nat × Nat))
    (td : List (Nat × List Nat)) (aw : List (Nat × List Nat))
    (ev : List (List Nat)) (g : GroupSt)
    (hlen : (g.getTypeConverters g.converters).length = g.myTypes.length)
    (hM : ∀ t ∈ g.myTypes, t ≠ 0 ∧ dictLookup aw t = none) :
    ∃ rt' td',
      fireGroupWith (sharedRegisterType (fuel + 1)) ⟨rt, td, aw, some g, ev⟩ g
        = .ok ⟨rt', td', aw, some g, ev ++ [g.converters]⟩ := by
  simp only [fireGroupWith]
  rw [if_neg (by rw [hlen]; exact fun h => h rfl)]
  exact regListWith_preserves fuel (g.myTypes.zip (g.getTypeConverters g.converters))
    rt td aw (some g) (ev ++ [g.converters])
    (fun p hp => hM p.1 (List.of_mem_zip hp).1)

/-! ### The pending group through its life cycle -/

theorem wdtar_establishes (fuel : Nat) (reg : List (Nat × Nat))
    (td : List (Nat × List Nat)) (M D : List Nat) (gf : List Nat → List Nat)
    (hU : unregCount reg D ≠ 0) :
    ∃ st1,
      whenDependentTypesAreResolved fuel (embindInit reg td) M D gf = .ok st1
      ∧ groupInv reg M D gf [] st1 := by
  refine ⟨⟨reg, M.foldl (fun a t => dictInsert a t D) td,
    (wdtarBuild reg D 0 []).2.2,
    some ⟨M, D, (wdtarBuild reg D 0 []).1, (wdtarBuild reg D 0 []).2.1, 0, gf⟩,
    []⟩, ?_, ?_⟩
  · simp only [whenDependentTypesAreResolved, embindInit]
    rw [if_neg (by rw [wdtarBuild_count]; exact hU)]
  · refine ⟨fun k => rfl, ?_, ⟨_, rfl, rfl, rfl, rfl, ?_, ?_, ?_⟩, rfl⟩
    · intro k
      show dictLookup (wdtarBuild reg D 0 []).2.2 k = _
      rw [wdtarBuild_awaiting reg D 0 [] k]
      by_cases h : (dictLookup reg k).isNone = true ∧ k ∈ D
      · rw [if_pos h, if_pos ⟨h.1, h.2, rfl⟩]
        rfl
      · rw [if_neg h, if_neg (fun hx => h ⟨hx.1, hx.2.1⟩)]
        rfl
    · show (wdtarBuild reg D 0 []).2.1 = unregCount reg D
      rw [wdtarBuild_count]
    · show (0 : Nat) = _
      rw [show (D.filter (fun x => (dictLookup reg x).isNone)).filter
            (fun x => (dictLookup ([] : List (Nat × Nat)) x).isSome) = []
          from List.filter_eq_nil.mpr (fun a _ => by simp [dictLookup])]
      rfl
    · show (wdtarBuild reg D 0 []).1 = _
      rw [wdtarBuild_converters]
      exact List.map_congr_left (fun d _ => (cOf_empty reg d).symm)

theorem register_step_no_fire (fuel : Nat) (reg : List (Nat × Nat))
    (M D : List Nat) (gf : List Nat → List Nat) (P : List (Nat × Nat))
    (st : EmbindState) (d c : Nat)
    (hInv : groupInv reg M D gf P st)
    (hd0 : d ≠ 0)
    (hdunreg : (dictLookup reg d).isNone = true)
    (hdD : d ∈ D)
    (hdP : dictLookup P d = none)
    (hremain : ∃ u, u ∈ D ∧ (dictLookup reg u).isNone = true ∧
      dictLookup P u = none ∧ u ≠ d) :
    ∃ st', sharedRegisterType (fuel + 1) st d c false = .ok st'
      ∧ groupInv reg M D gf (dictInsert P d c) st' := by
  obtain ⟨hreg, hawait, ⟨g, hg, hgM, hgD, hggf, hgU, hgR, hgC⟩, hev⟩ := hInv
  obtain ⟨rt, td, aw, grp, ev⟩ := st
  simp only at hreg hawait hg hev
  subst hg
  subst hev
  have hawd : dictLookup aw d = some (slotsAux d D 0) := by
    rw [hawait d, if_pos ⟨hdunreg, hdD, hdP⟩]
  have hlt : g.registered + (slotsAux d D 0).length < g.unregisteredCount := by
    rw [hgR, hgU]
    obtain ⟨u, huD, huunreg, huP, hud⟩ := hremain
    have h1 := registered_after_insert reg P D d c hdunreg hdP
    have h2 := registered_lt_total reg (dictInsert P d c) D u huD huunreg
      (by rw [dictLookup_insert_ne P d u c hud]; exact huP)
    omega
  have hrun := runCallbacksWith_sets (sharedRegisterType fuel)
    (dictInsert rt d c) (dictRemove td d) (dictRemove aw d) [] d c
    (slotsAux d D 0) g (dictLookup_insert_self rt d c) hlt
  refine ⟨⟨dictInsert rt d c, dictRemove td d, dictRemove aw d,
    some { g with converters := setSlots g.converters (slotsAux d D 0) c,
                  registered := g.registered + (slotsAux d D 0).length },
    []⟩, ?_, ?_⟩
  · show sharedRegisterType (fuel + 1) ⟨rt, td, aw, some g, []⟩ d c false = _
    simp only [sharedRegisterType]
    rw [if_neg hd0, if_neg (fun hx => by simpa using hx.2)]
    simp only [hawd]
    exact hrun
  · refine ⟨?_, ?_, ⟨_, rfl, hgM, hgD, hggf, hgU, ?_, ?_⟩, rfl⟩
    · intro k
      by_cases hk : k = d
      · subst hk
        show dictLookup (dictInsert rt k c) k = _
        rw [dictLookup_insert_self, dictLookup_insert_self]
      · show dictLookup (dictInsert rt d c) k = _
        rw [dictLookup_insert_ne rt d k c hk,
          dictLookup_insert_ne P d k c hk, hreg k]
    · intro k
      by_cases hk : k = d
      · subst hk
        show dictLookup (dictRemove aw k) k = _
        rw [dictLookup_remove_self,
          if_neg (fun hx => by
            rw [dictLookup_insert_self] at hx
            exact Option.some_ne_none c hx.2.2)]
      · show dictLookup (dictRemove aw d) k = _
        rw [dictLookup_remove_ne aw d k hk, hawait k,
          dictLookup_insert_ne P d k c hk]
    · show g.registered + (slotsAux d D 0).length = _
      rw [hgR]
      exact (registered_after_insert reg P D d c hdunreg hdP).symm
    · show setSlots g.converters (slotsAux d D 0) c = _
      rw [hgC]
      exact setSlots_map_cOf reg P D d c hdunreg hdP

theorem register_step_fire (fuel : Nat) (reg : List (Nat × Nat))
    (M D : List Nat) (gf : List Nat → List Nat) (P : List (Nat × Nat))
    (st : EmbindState) (d c : Nat)
    (hInv : groupInv reg M D gf P st)
    (hd0 : d ≠ 0)
    (hdunreg : (dictLookup reg d).isNone = true)
    (hdD : d ∈ D)
    (hdP : dictLookup P d = none)
    (hcomplete : ∀ u ∈ D, (dictLookup reg u).isNone = true →
      (dictLookup (dictInsert P d c) u).isSome = true)
    (hlen : (gf (D.map (cOf reg (dictInsert P d c)))).length = M.length)
    (hM : ∀ t ∈ M, t ≠ 0) :
    ∃ st', sharedRegisterType (fuel + 2) st d c false = .ok st'
      ∧ st'.events = [D.map (cOf reg (dictInsert P d c))] := by
  obtain ⟨hreg, hawait, ⟨g, hg, hgM, hgD, hggf, hgU, hgR, hgC⟩, hev⟩ := hInv
  obtain ⟨rt, td, aw, grp, ev⟩ := st
  simp only at hreg hawait hg hev
  subst hg
  subst hev
  have hawd : dictLookup aw d = some (slotsAux d D 0) := by
    rw [hawait d, if_pos ⟨hdunreg, hdD, hdP⟩]
  have hfe : g.registered + (slotsAux d D 0).length = g.unregisteredCount := by
    rw [hgR, hgU]
    have h1 := registered_after_insert reg P D d c hdunreg hdP
    have h2 := registered_eq_total reg (dictInsert P d c) D hcomplete
    omega
  have hrun := runCallbacksWith_fire (sharedRegisterType (fuel + 1))
    (dictInsert rt d c) (dictRemove td d) (dictRemove aw d) [] d c
    (slotsAux d D 0) g (dictLookup_insert_self rt d c)
    (slotsAux_ne_nil_of_mem d D 0 hdD) hfe
  set gF : GroupSt :=
    { g with converters := setSlots g.converters (slotsAux d D 0) c,
             registered := g.unregisteredCount } with hgF
  have hconvF : gF.converters = D.map (cOf reg (dictInsert P d c)) := by
    rw [hgF]
    show setSlots g.converters (slotsAux d D 0) c = _
    rw [hgC]
    exact setSlots_map_cOf reg P D d c hdunreg hdP
  have hfires := fireGroupWith_fires fuel (dictInsert rt d c) (dictRemove td d)
    (dictRemove aw d) [] gF
    (by
      rw [hconvF]
      show (gF.getTypeConverters _).length = gF.myTypes.length
      have h1 : gF.getTypeConverters = gf := hggf
      have h2 : gF.myTypes = M := hgM
      rw [h1, h2, hlen])
    (by
      intro t ht
      have htM : t ∈ M := by
        have h2 : gF.myTypes = M := hgM
        rw [h2] at ht
        exact ht
      refine ⟨hM t htM, ?_⟩
      by_cases htd : t = d
      · subst htd
        exact dictLookup_remove_self aw t
      · rw [dictLookup_remove_ne aw d t htd, hawait t]
        rw [if_neg ?_]
        intro hx
        have := hcomplete t hx.2.1 hx.1
        rw [dictLookup_insert_ne P d t c htd, hx.2.2] at this
        cases this)
  obtain ⟨rt', td', hfeq⟩ := hfires
  refine ⟨⟨rt', td', dictRemove aw d, some gF, [] ++ [gF.converters]⟩, ?_, ?_⟩
  · show sharedRegisterType (fuel + 2) ⟨rt, td, aw, some g, []⟩ d c false = _
    simp only [sharedRegisterType]
    rw [if_neg hd0, if_neg (fun hx => by simpa using hx.2)]
    simp only [hawd]
    exact hrun.trans hfeq
  · show [] ++ [gF.converters] = _
    rw [hconvF]
    rfl

theorem dictLookup_concat_last (L' : List (Nat × Nat)) (p : Nat × Nat)
    (hnot : p.1 ∉ L'.map Prod.fst) :
    dictLookup (L'.concat p) p.1 = some p.2 := by
  rw [List.concat_eq_append, dictLookup_append,
    dictLookup_eq_none_of_not_mem L' p.1 hnot]
  show (if p.1 = p.1 then some p.2 else none) = some p.2
  rw [if_pos rfl]

theorem dictLookup_concat_ne (L' : List (Nat × Nat)) (p : Nat × Nat) (x : Nat)
    (hx : x ≠ p.1) :
    dictLookup (L'.concat p) x = dictLookup L' x := by
  rw [List.concat_eq_append, dictLookup_append]
  cases hr : dictLookup L' x with
  | some c => rfl
  | none =>
    show (if p.1 = x then some p.2 else none) = none
    rw [if_neg (fun h => hx h.symm)]

theorem registerSequence_append (fuel : Nat) (A B : List (Nat × Nat)) :
    ∀ st, registerSequence fuel st (A ++ B)
      = match registerSequence fuel st A with
        | .ok s => registerSequence fuel s B
        | .error e => .error e := by
  induction A with
  | nil => intro st; rfl
  | cons p rest ih =>
    intro st
    simp only [List.cons_append, registerSequence]
    cases sharedRegisterType fuel st p.1 p.2 false with
    | ok s => exact ih s
    | error e => rfl

theorem registerSequence_no_fire (fuel : Nat) (reg : List (Nat × Nat))
    (M D : List Nat) (gf : List Nat → List Nat) :
    ∀ (L : List (Nat × Nat)) (P : List (Nat × Nat)) (st : EmbindState),
      groupInv reg M D gf P st →
      (L.map Prod.fst).Nodup →
      (∀ p ∈ L, p.1 ≠ 0 ∧ (dictLookup reg p.1).isNone = true ∧ p.1 ∈ D ∧
        dictLookup P p.1 = none) →
      (∃ u, u ∈ D ∧ (dictLookup reg u).isNone = true ∧
        dictLookup P u = none ∧ ∀ p ∈ L, p.1 ≠ u) →
      ∃ st', registerSequence (fuel + 1) st L = .ok st'
        ∧ groupInv reg M D gf
            (L.foldl (fun a p => dictInsert a p.1 p.2) P) st' := by
  intro L
  induction L with
  | nil => intro P st hInv _ _ _; exact ⟨st, rfl, hInv⟩
  | cons p rest ih =>
    intro P st hInv hnd hL hrem
    obtain ⟨hp0, hpunreg, hpD, hpP⟩ := hL p (List.mem_cons_self p rest)
    obtain ⟨u, huD, huunreg, huP, huL⟩ := hrem
    have hpu : u ≠ p.1 :=
      fun h => (huL p (List.mem_cons_self p rest)) h.symm
    obtain ⟨st1, hstep, hInv1⟩ := register_step_no_fire fuel reg M D gf P st
      p.1 p.2 hInv hp0 hpunreg hpD hpP ⟨u, huD, huunreg, huP, hpu⟩
    rw [List.map_cons, List.nodup_cons] at hnd
    have hL' : ∀ q ∈ rest, q.1 ≠ 0 ∧ (dictLookup reg q.1).isNone = true ∧
        q.1 ∈ D ∧ dictLookup (dictInsert P p.1 p.2) q.1 = none := by
      intro q hq
      obtain ⟨hq0, hqu, hqD, hqP⟩ := hL q (List.mem_cons_of_mem p hq)
      refine ⟨hq0, hqu, hqD, ?_⟩
      have hqp : q.1 ≠ p.1 := by
        intro h
        exact hnd.1 (h ▸ List.mem_map_of_mem Prod.fst hq)
      rw [dictLookup_insert_ne P p.1 q.1 p.2 hqp]
      exact hqP
    have hrem' : ∃ u', u' ∈ D ∧ (dictLookup reg u').isNone = true ∧
        dictLookup (dictInsert P p.1 p.2) u' = none ∧
        ∀ q ∈ rest, q.1 ≠ u' := by
      refine ⟨u, huD, huunreg, ?_, fun q hq => huL q (List.mem_cons_of_mem p hq)⟩
      rw [dictLookup_insert_ne P p.1 u p.2 hpu]
      exact huP
    obtain ⟨st', hseq, hInv'⟩ :=
      ih (dictInsert P p.1 p.2) st1 hInv1 hnd.2 hL' hrem'
    refine ⟨st', ?_, hInv'⟩
    show registerSequence (fuel + 1) st (p :: rest) = .ok st'
    simp only [registerSequence, hstep]
    exact hseq

/-- C4: `when_dependent_types_are_resolved` fires its completion callback
(`get_type_converters`, observable as an entry in `events`) exactly once,
and only once every dependent id has a registered converter.
Part 1: with every dependent id already registered (including the empty
list), it fires synchronously during the call, passing one captured
converter per dependent id in order.  Part 2: with some dependent ids
unregistered, externally registering any strict subset of the outstanding
ids fires nothing.  Part 3: registering all outstanding ids (the last one
last) fires exactly once, passing for each dependent id the initially
registered converter or the one supplied by its later registration, in
dependent-list order. -/
theorem when_dependent_types_fire_exactly_once :
    (∀ (fuel : Nat) (reg : List (Nat × Nat)) (td : List (Nat × List Nat))
        (M D : List Nat) (gf : List Nat → List Nat),
        (∀ d ∈ D, (dictLookup reg d).isSome = true) →
        (gf (D.map (fun d => (dictLookup reg d).getD 0))).length = M.length →
        (∀ t ∈ M, t ≠ 0) →
        ∃ st', whenDependentTypesAreResolved (fuel + 1) (embindInit reg td)
            M D gf = .ok st'
          ∧ st'.events = [D.map (fun d => (dictLookup reg d).getD 0)])
    ∧ (∀ (fuel : Nat) (reg : List (Nat × Nat)) (td : List (Nat × List Nat))
        (M D : List Nat) (gf : List Nat → List Nat) (L : List (Nat × Nat)),
        (L.map Prod.fst).Nodup →
        (∀ p ∈ L, p.1 ≠ 0 ∧ (dictLookup reg p.1).isNone = true ∧ p.1 ∈ D) →
        (∃ u, u ∈ D ∧ (dictLookup reg u).isNone = true ∧
          ∀ p ∈ L, p.1 ≠ u) →
        ∃ st1 st',
          whenDependentTypesAreResolved fuel (embindInit reg td) M D gf
            = .ok st1
          ∧ st1.events = []
          ∧ registerSequence (fuel + 1) st1 L = .ok st'
          ∧ st'.events = [])
    ∧ (∀ (fuel : Nat) (reg : List (Nat × Nat)) (td : List (Nat × List Nat))
        (M D : List Nat) (gf : List Nat → List Nat) (L : List (Nat × Nat)),
        (L.map Prod.fst).Nodup →
        (∀ p ∈ L, p.1 ≠ 0 ∧ (dictLookup reg p.1).isNone = true ∧ p.1 ∈ D) →
        (∀ u ∈ D, (dictLookup reg u).isNone = true →
          (dictLookup L u).isSome = true) →
        (∃ u, u ∈ D ∧ (dictLookup reg u).isNone = true) →
        (gf (D.map (cOf reg L))).length = M.length →
        (∀ t ∈ M, t ≠ 0) →
        ∃ st1 st',
          whenDependentTypesAreResolved fuel (embindInit reg td) M D gf
            = .ok st1
          ∧ st1.events = []
          ∧ registerSequence (fuel + 2) st1 L = .ok st'
          ∧ st'.events = [D.map (cOf reg L)]) := by
  refine ⟨?_, ?_, ?_⟩
  · -- all dependent ids already registered: synchronous fire
    intro fuel reg td M D gf hallreg hgf hM0
    have hcount : unregCount reg D = 0 := by
      unfold unregCount
      rw [show D.filter (fun x => (dictLookup reg x).isNone) = []
          from List.filter_eq_nil_iff.mpr (fun a ha => by
            have h := hallreg a ha
            cases hr : dictLookup reg a with
            | some c => simp [hr]
            | none => rw [hr] at h; cases h)]
      rfl
    have hfires := fireGroupWith_fires fuel reg
      (M.foldl (fun a t => dictInsert a t D) td)
      (wdtarBuild reg D 0 []).2.2 []
      ⟨M, D, (wdtarBuild reg D 0 []).1, (wdtarBuild reg D 0 []).2.1, 0, gf⟩
      (by
        show (gf (wdtarBuild reg D 0 []).1).length = M.length
        rw [wdtarBuild_converters]
        exact hgf)
      (by
        intro t ht
        refine ⟨hM0 t ht, ?_⟩
        rw [wdtarBuild_awaiting reg D 0 [] t, if_neg ?_]
        · rfl
        · rintro ⟨h1, h2⟩
          have := hallreg t h2
          cases hr : dictLookup reg t with
          | some c => rw [hr] at h1; cases h1
          | none => rw [hr] at this; cases this)
    obtain ⟨rt', td'', hfeq⟩ := hfires
    refine ⟨⟨rt', td'', (wdtarBuild reg D 0 []).2.2,
      some ⟨M, D, (wdtarBuild reg D 0 []).1, (wdtarBuild reg D 0 []).2.1,
        0, gf⟩,
      [] ++ [(wdtarBuild reg D 0 []).1]⟩, ?_, ?_⟩
    · simp only [whenDependentTypesAreResolved, embindInit]
      rw [if_pos (by rw [wdtarBuild_count]; exact hcount)]
      exact hfeq
    · show ([] ++ [(wdtarBuild reg D 0 []).1] : List (List Nat)) = _
      rw [wdtarBuild_converters]
      rfl
  · -- strict subset of the outstanding ids: no fire
    intro fuel reg td M D gf L hnd hL hrem
    obtain ⟨u, huD, huunreg, huL⟩ := hrem
    obtain ⟨st1, hwd, hInv⟩ := wdtar_establishes fuel reg td M D gf
      (unregCount_ne_zero reg D u huD huunreg)
    obtain ⟨st', hseq, hInv'⟩ := registerSequence_no_fire fuel reg M D gf L
      [] st1 hInv hnd
      (fun p hp => ⟨(hL p hp).1, (hL p hp).2.1, (hL p hp).2.2, rfl⟩)
      ⟨u, huD, huunreg, rfl, huL⟩
    exact ⟨st1, st', hwd, hInv.2.2.2, hseq, hInv'.2.2.2⟩
  · -- completing the registrations: exactly one fire
    intro fuel reg td M D gf L hnd hL hcover hex hgf hM0
    obtain ⟨u, huD, huunreg⟩ := hex
    obtain ⟨st1, hwd, hInv⟩ := wdtar_establishes fuel reg td M D gf
      (unregCount_ne_zero reg D u huD huunreg)
    have hLne : L ≠ [] := by
      intro h
      have := hcover u huD huunreg
      rw [h] at this
      cases this
    rcases List.eq_nil_or_concat L with h | ⟨L', p, rfl⟩
    · exact absurd h hLne
    have hndL : ((L'.concat p).map Prod.fst).Nodup := hnd
    rw [List.concat_eq_append, List.map_append] at hndL
    obtain ⟨hndL', _, hdisj⟩ := List.nodup_append.mp hndL
    have hpnotin : p.1 ∉ L'.map Prod.fst :=
      fun hx => hdisj hx (by simp)
    obtain ⟨hp0, hpunreg, hpD⟩ := hL p (by
      rw [List.concat_eq_append]
      exact List.mem_append_right L' (by simp))
    -- run all but the last registration without firing
    obtain ⟨stk, hseqk, hInvk⟩ := registerSequence_no_fire (fuel + 1) reg M D gf
      L' [] st1 hInv hndL'
      (fun q hq =>
        have hqm : q ∈ L'.concat p := by
          rw [List.concat_eq_append]
          exact List.mem_append_left [p] hq
        ⟨(hL q hqm).1, (hL q hqm).2.1, (hL q hqm).2.2, rfl⟩)
      ⟨p.1, hpD, hpunreg, rfl,
        fun q hq h => hpnotin (h ▸ List.mem_map_of_mem Prod.fst hq)⟩
    set Pk := L'.foldl (fun a q => dictInsert a q.1 q.2) [] with hPk
    have hPkLookup : ∀ k, dictLookup Pk k
        = match dictLookup L' k with
          | some c => some c
          | none => none := by
      intro k
      rw [hPk, dictLookup_foldl_insert L' [] k hndL']
      cases dictLookup L' k <;> rfl
    have hPkp : dictLookup Pk p.1 = none := by
      rw [hPkLookup p.1, dictLookup_eq_none_of_not_mem L' p.1 hpnotin]
    have hmapeq : D.map (cOf reg (dictInsert Pk p.1 p.2))
        = D.map (cOf reg (L'.concat p)) := by
      apply List.map_congr_left
      intro x _
      unfold cOf
      cases hr : dictLookup reg x with
      | some c => rfl
      | none =>
        by_cases hxp : x = p.1
        · subst hxp
          rw [dictLookup_insert_self, dictLookup_concat_last L' p hpnotin]
        · rw [dictLookup_insert_ne Pk p.1 x p.2 hxp,
            dictLookup_concat_ne L' p x hxp, hPkLookup x]
          cases dictLookup L' x <;> rfl
    obtain ⟨st', hstep, hev'⟩ := register_step_fire fuel reg M D gf Pk stk
      p.1 p.2 hInvk hp0 hpunreg hpD hPkp
      (by
        intro v hvD hvunreg
        have hvL := hcover v hvD hvunreg
        by_cases hvp : v = p.1
        · subst hvp
          rw [dictLookup_insert_self]
          rfl
        · rw [dictLookup_insert_ne Pk p.1 v p.2 hvp, hPkLookup v]
          rw [dictLookup_concat_ne L' p v hvp] at hvL
          cases hc : dictLookup L' v with
          | some c => rfl
          | none => rw [hc] at hvL; cases hvL)
      (by rw [hmapeq]; exact hgf) hM0
    refine ⟨st1, st', hwd, hInv.2.2.2, ?_, ?_⟩
    · rw [List.concat_eq_append, registerSequence_append (fuel + 2) L' [p] st1,
        hseqk]
      show registerSequence (fuel + 2) stk [p] = .ok st'
      simp only [registerSequence, hstep]
    · rw [hev', hmapeq]

theorem when_dependent_types_fire_exactly_once_witness :
    ∃ st1 st',
      whenDependentTypesAreResolved 0 (embindInit [] []) [9] [4, 5]
          (fun _ => [99]) = .ok st1
      ∧ st1.events = []
      ∧ registerSequence 2 st1 [(4, 70), (5, 71)] = .ok st'
      ∧ st'.events = [[4, 5].map (cOf [] [(4, 70), (5, 71)])] :=
  when_dependent_types_fire_exactly_once.2.2 0 [] [] [9] [4, 5]
    (fun _ => [99]) [(4, 70), (5, 71)] (by decide) (by decide) (by decide)
    ⟨4, by decide⟩ (by decide) (by decide)

end WebixDapper
